import Mathlib

/-!
# Verification of the `combinatorust` enumerators

Shallow embedding of the library's lending iterators (`src/src/iter.rs`, with
the earlier revision of the combination iterator from `src/src/lib.rs`):

* `Combinations` / `Combinations.next`  — `iter.rs` lines 10-66
* `Combinations.nextLib`                — `lib.rs` lines 44-70 (earlier
  revision; differs from `iter.rs` only in `let m = n - h` vs `n - h + 1`)
* `Subsequences` / `Subsequences.nextE` — `iter.rs` lines 72-132
* `Permutations` / `Permutations.next`  — `iter.rs` lines 145-176
* `Product` / `Product.next`            — `iter.rs` lines 183-220
* `Catalan` / `Catalan.next`            — `iter.rs` lines 225-291

Rust `Vec<T>`s are embedded as Lean `List`s (push = append at the end,
`pop` = `dropLast`, `last()` = `getLast?`); Rust slices of the source are
embedded as `drop`/`take`; `usize` arithmetic is `Nat` arithmetic, with
subtractions that can underflow (which panic in Rust debug builds) either
guarded by an `Except` error or kept truncated where reachable states are
proved in bounds.  A stateful Rust iterator's `next(&mut self)` becomes a
pure function `σ → Option item × σ`.
-/

namespace Combinatorust

/-- Embedding of Rust's `Iterator::rposition`: index of the *last* element
satisfying the predicate. -/
def rposition? (p : α → Bool) : List α → Option ℕ
  | [] => none
  | a :: l =>
    match rposition? p l with
    | some i => some (i + 1)
    | none => if p a then some 0 else none

/-- Embedding of `Vec::swap` (in-bounds case; Rust panics out of bounds,
but every call site is proved in bounds). -/
def swapL (l : List α) (a b : ℕ) : List α :=
  if h : a < l.length ∧ b < l.length then
    (l.set a (l.get ⟨b, h.2⟩)).set b (l.get ⟨a, h.1⟩)
  else l

/-- The view of the source selected by a list of indices. -/
def sel (src : List α) (c : List ℕ) : List α :=
  c.filterMap fun i => src[i]?

/-- Drive a stateful enumerator: repeatedly call `next`, collecting the
yielded views, until it signals exhaustion (or fuel runs out). -/
def run (next : σ → Option v × σ) : ℕ → σ → List v × σ
  | 0, s => ([], s)
  | fuel + 1, s =>
    match next s with
    | (none, s') => ([], s')
    | (some x, s') =>
      let r := run next fuel s'
      (x :: r.1, r.2)

/-! ## Combinations (`iter.rs` lines 10-66, `lib.rs` lines 10-70) -/

/-- `iter.rs` lines 10-15: an iterator over combinations of `k` elements in a
list of `n`.  The i-th cell of `dest` can contain an element from `src` with
index `j` between `i` and `n-k+i`; `indices[i]` records the difference
`n-k+i-j`.  `first` distinguishes the first call to `next`. -/
structure Combinations (α : Type u) where
  src : List α
  dest : List α
  indices : List ℕ
  first : Bool
  deriving Repr, DecidableEq

/-- `iter.rs` lines 21-31 (`[T]::combinations`): build the iterator.
`iter::repeat(self.len()-k).take(k)` underflows (panics) when `k > n`,
and `self[0..k]` panics when `k > n`; that abnormal construction is the
`Except.error` case. -/
def combinations (src : List α) (k : ℕ) : Except Unit (Combinations α) :=
  if k ≤ src.length then
    .ok { src := src, dest := src.take k,
          indices := List.replicate k (src.length - k), first := true }
  else .error ()

/-- `iter.rs` lines 41-66 (`Combinations::next`). -/
def Combinations.next (s : Combinations α) : Option (List α) × Combinations α :=
  let n := s.src.length
  let k := s.dest.length
  if s.first then (some s.dest, { s with first := false }) else
  match rposition? (fun j => j != 0) s.indices with
  | none => (none, s)
  | some i =>
    let h := s.indices.getD i 0
    let m := n - h + 1
    let indices' := s.indices.take i ++ List.replicate (s.indices.length - i) (h - 1)
    let dest' := s.dest.take i ++ (s.src.drop (m - k + i)).take (k - i)
    (some dest', { s with indices := indices', dest := dest' })

/-- `lib.rs` lines 44-70: the earlier revision of `Combinations::next`.
Identical to `iter.rs` except `let m = n - h;` (lib.rs line 62) instead of
`let m = n - h + 1;` (iter.rs line 58). -/
def Combinations.nextLib (s : Combinations α) : Option (List α) × Combinations α :=
  let n := s.src.length
  let k := s.dest.length
  if s.first then (some s.dest, { s with first := false }) else
  match rposition? (fun j => j != 0) s.indices with
  | none => (none, s)
  | some i =>
    let h := s.indices.getD i 0
    let m := n - h
    let indices' := s.indices.take i ++ List.replicate (s.indices.length - i) (h - 1)
    let dest' := s.dest.take i ++ (s.src.drop (m - k + i)).take (k - i)
    (some dest', { s with indices := indices', dest := dest' })

/-! ## Subsequences (`iter.rs` lines 72-132) -/

/-- `iter.rs` lines 72-77.  Invariant (from the source comment): `dest` and
`indices` have the same length. -/
structure Subsequences (α : Type u) where
  src : List α
  dest : List α
  indices : List ℕ
  first : Bool
  deriving Repr, DecidableEq

/-- `iter.rs` lines 83-92 (`[T]::subsequences`). -/
def subsequences (src : List α) : Subsequences α :=
  { src := src, dest := [], indices := [], first := true }

/-- `iter.rs` lines 99-132 (`Subsequences::next`).  The `Except.error` results
model the two ways this body can panic: the `assert![false]` arm of the
`match`, and an out-of-bounds `src[*i]` after the increment step.  Both are
proved unreachable from well-formed states. -/
def Subsequences.nextE (s : Subsequences α) :
    Except Unit (Option (List α) × Subsequences α) :=
  if s.first then .ok (some s.dest, { s with first := false }) else
  let n := s.src.length
  let i := (s.indices.getLast?).elim 0 (· + 1)
  if h : i < n then
    .ok (some (s.dest ++ [s.src.get ⟨i, h⟩]),
      { s with indices := s.indices ++ [i], dest := s.dest ++ [s.src.get ⟨i, h⟩] })
  else
    let indices1 := s.indices.dropLast
    let dest1 := s.dest.dropLast
    match indices1.getLast?, dest1.getLast? with
    | none, none => .ok (none, { s with indices := indices1, dest := dest1, first := true })
    | some j, some _ =>
      if h2 : j + 1 < n then
        .ok (some (dest1.dropLast ++ [s.src.get ⟨j + 1, h2⟩]),
          { s with indices := indices1.dropLast ++ [j + 1],
                   dest := dest1.dropLast ++ [s.src.get ⟨j + 1, h2⟩] })
      else .error ()
    | _, _ => .error ()

/-- `Subsequences::next` as a total step function (the panic cases, proved
unreachable, are mapped to the exhaustion signal). -/
def Subsequences.next (s : Subsequences α) : Option (List α) × Subsequences α :=
  match s.nextE with
  | .ok r => r
  | .error _ => (none, s)

/-! ## Permutations (`iter.rs` lines 145-176) -/

/-- Modelled from the spec: `std::slice::ElementSwaps` is standard-library
code, not part of this repository.  The spec describes it as "an external
minimal-change swap-sequence generator that yields, for each step, either a
no-op sentinel (meaning 'emit current state unchanged', used only for the
first item) or a pair of positions to swap in place before emitting", a
"standard minimal-change (adjacent-transposition) generator".  We model it as
the remaining instruction stream of the classical adjacent-transposition
(Steinhaus-Johnson-Trotter) order: the element initially last sweeps through
all positions, one `sjtSwaps`-step of the remaining elements is interleaved
between sweeps.  `sweep n false` moves the sweeping element from position `n`
down to position `0`; `sweep n true` moves it back up. -/
def sweep (n : ℕ) (up : Bool) : List (ℕ × ℕ) :=
  if up then (List.range n).map fun p => (p, p + 1)
  else ((List.range n).reverse).map fun p => (p, p + 1)

/-- Modelled from the spec (see `sweep`): interleave the swaps of the first
`n` elements with sweeps of the last element; a base swap is shifted by one
when the sweeping element currently occupies position `0`. -/
def weave (n : ℕ) : Bool → List (ℕ × ℕ) → List (ℕ × ℕ)
  | _, [] => []
  | atBottom, (a, b) :: rest =>
    (if atBottom then (a + 1, b + 1) else (a, b)) ::
      (sweep n atBottom ++ weave n (!atBottom) rest)

/-- Modelled from the spec (see `sweep`): the `n! - 1` adjacent
transpositions of the minimal-change order on `n` elements. -/
def sjtSwaps : ℕ → List (ℕ × ℕ)
  | 0 => []
  | n + 1 => sweep n false ++ weave n true (sjtSwaps n)

/-- Modelled from the spec (see `sweep`): the swap-sequence generator state is
the stream of instructions not yet emitted; `(0, 0)` is the no-op sentinel
used for the first item. -/
structure ElementSwaps where
  swaps : List (ℕ × ℕ)
  deriving Repr, DecidableEq

/-- Modelled from the spec (see `sweep`): `ElementSwaps::new(length)`. -/
def ElementSwaps.new (length : ℕ) : ElementSwaps :=
  ⟨(0, 0) :: sjtSwaps length⟩

/-- `iter.rs` lines 145-148. -/
structure Permutations (α : Type u) where
  dest : List α
  swaps : ElementSwaps
  deriving Repr, DecidableEq

/-- `iter.rs` lines 154-161 (`[T]::permutations_iter`). -/
def permutations_iter (src : List α) : Permutations α :=
  { dest := src, swaps := ElementSwaps.new src.length }

/-- `iter.rs` lines 163-176 (`Permutations::next`). -/
def Permutations.next (s : Permutations α) : Option (List α) × Permutations α :=
  match s.swaps.swaps with
  | [] => (none, s)
  | (0, 0) :: rest => (some s.dest, { s with swaps := ⟨rest⟩ })
  | (a, b) :: rest =>
    let d := swapL s.dest a b
    (some d, { dest := d, swaps := ⟨rest⟩ })

/-! ## Product (`iter.rs` lines 183-220)

The two component iterators are embedded as lists (`next` = uncons); this is
the finite-sequence instance the claims quantify over. -/

/-- `iter.rs` lines 183-188. -/
structure Product (α : Type u) (β : Type v) where
  iter_b_const : List β
  cur_a : Option α
  iter_a : List α
  iter_b : List β
  deriving Repr, DecidableEq

/-- `iter.rs` lines 193-200 (`Product::new`): `cur_a` is primed with
`i.next()`. -/
def Product.new (i : List α) (j : List β) : Product α β :=
  { iter_b_const := j, cur_a := i.head?, iter_a := i.tail, iter_b := j }

/-- The `loop` of `Product::next` after `iter_b` has run dry: advance
`iter_a`, refill `iter_b` from `iter_b_const`, and retry.  Structural
recursion on the remaining outer iterator (for list-embedded iterators the
loop terminates; the source notes it would spin only for an infinite
`iter_a`). -/
def Product.nextAux (c : List β) : List α → Option (α × β) × Product α β
  | [] => (none, { iter_b_const := c, cur_a := none, iter_a := [], iter_b := c })
  | a :: rest =>
    match c with
    | y :: ys => (some (a, y), { iter_b_const := c, cur_a := some a, iter_a := rest, iter_b := ys })
    | [] => Product.nextAux c rest

/-- `iter.rs` lines 203-220 (`Product::next`). -/
def Product.next (s : Product α β) : Option (α × β) × Product α β :=
  match s.cur_a, s.iter_b with
  | some x, y :: ys => (some (x, y), { s with iter_b := ys })
  | none, _ => (none, s)
  | some _, [] => Product.nextAux s.iter_b_const s.iter_a

/-! ## Catalan (`iter.rs` lines 225-291) -/

/-- `iter.rs` lines 225-228. -/
structure Catalan where
  indices : List ℕ
  first : Bool
  deriving Repr, DecidableEq

/-- `iter.rs` lines 230-237 (`Catalan::new`): `indices: (0..n-1).collect()`,
i.e. the strictly increasing sequence `0, 1, …, n-2`. -/
def Catalan.new (n : ℕ) : Catalan :=
  { indices := List.range (n - 1), first := true }

/-- `iter.rs` lines 276-291 (`Catalan::next`).  `Vec::move_from` is
standard-library code, not part of this repository; its effect here is
modelled from the source's own authoritative `# Algorithm for next()`
comment (lines 266-274): from `0 0 … 0 j * …` (the leftmost nonzero `j` at
position `i`) the next state is `0 1 2 … j-2 j-1 j-1 … j-1 * …`, i.e. the
first `j` cells become `0, 1, …, j-1` (the `move_from` line) and cells
`j ..= i` become `j-1` (the `for k in indices[j..(i+1)]` loop). -/
def Catalan.next (s : Catalan) : Option (List ℕ) × Catalan :=
  if s.first then (some s.indices, { s with first := false }) else
  match s.indices.findIdx? (fun j => j != 0) with
  | none => (none, s)
  | some i =>
    let j := s.indices.getD i 0
    let moved := List.range j ++ s.indices.drop j
    let indices' := moved.take j ++ List.replicate (i + 1 - j) (j - 1) ++ moved.drop (i + 1)
    (some indices', { s with indices := indices' })

end Combinatorust

namespace Combinatorust

/-! ## Basic facts about `rposition?` -/

theorem rposition?_eq_none {p : α → Bool} {l : List α} (h : ∀ x ∈ l, p x = false) :
    rposition? p l = none := by
  induction l with
  | nil => rfl
  | cons a l ih =>
    have ha : p a = false := h a (by simp)
    simp [rposition?, ih fun x hx => h x (by simp [hx]), ha]

theorem rposition?_lt {p : α → Bool} {l : List α} {i : ℕ}
    (h : rposition? p l = some i) : i < l.length := by
  induction l generalizing i with
  | nil => simp [rposition?] at h
  | cons a l ih =>
    simp only [rposition?] at h
    cases hr : rposition? p l with
    | some j =>
      rw [hr] at h
      cases h
      simpa using Nat.succ_lt_succ (ih hr)
    | none =>
      rw [hr] at h
      by_cases hp : p a
      · simp [hp] at h
        simp [← h]
      · simp [hp] at h

theorem rposition?_getD {p : α → Bool} {l : List α} {i : ℕ} (d : α)
    (h : rposition? p l = some i) : p (l.getD i d) = true := by
  induction l generalizing i with
  | nil => simp [rposition?] at h
  | cons a l ih =>
    simp only [rposition?] at h
    cases hr : rposition? p l with
    | some j =>
      rw [hr] at h
      cases h
      simpa using ih hr
    | none =>
      rw [hr] at h
      by_cases hp : p a <;> simp [hp] at h
      simp [← h, hp]

theorem rposition?_append_right {p : α → Bool} {l₁ l₂ : List α}
    (h : ∀ x ∈ l₂, p x = false) :
    rposition? p (l₁ ++ l₂) = rposition? p l₁ := by
  induction l₁ with
  | nil => simpa [rposition?] using rposition?_eq_none h
  | cons a l ih => simp [rposition?, ih]

theorem rposition?_concat {p : α → Bool} {l : List α} {a : α} (h : p a = true) :
    rposition? p (l ++ [a]) = some l.length := by
  induction l with
  | nil => simp [rposition?, h]
  | cons b l ih => simp [rposition?, ih]

/-! ## C2: the tree-shape enumerator's initial state -/

/-- **C2, counterexample.**  The claim says the tree-shape index array is
"initialized to all zeros" so that "the first advance yields an all-zero
label sequence".  At leaf count 4 the Rust constructor `(0..n-1).collect()`
gives `[0, 1, 2]`, not `[0, 0, 0]`, and the first advance yields `[0, 1, 2]`. -/
theorem catalan_new_not_all_zeros :
    (Catalan.new 4).indices ≠ List.replicate 3 0 ∧
      (Catalan.next (Catalan.new 4)).1 ≠ some (List.replicate 3 0) := by
  decide

/-- **C2, amended.**  For leaf count `n ≥ 1` the constructor `Catalan::new(n)`
initializes the index array to the strictly increasing sequence
`[0, 1, …, n-2]` of length `n-1` (the degenerate left-leaning shape), and the
first advance yields exactly that sequence. -/
theorem catalan_new_init (n : ℕ) (_hn : 1 ≤ n) :
    (Catalan.new n).indices = List.range (n - 1) ∧
      (Catalan.new n).indices.length = n - 1 ∧
      Catalan.next (Catalan.new n) =
        (some (List.range (n - 1)), ⟨List.range (n - 1), false⟩) := by
  refine ⟨rfl, by simp [Catalan.new], ?_⟩
  simp [Catalan.new, Catalan.next]

/-- Witness for `catalan_new_init` at `n = 4`. -/
theorem catalan_new_init_witness :
    1 ≤ 4 ∧ (Catalan.new 4).indices = List.range 3 := by
  have h := catalan_new_init 4 (by decide)
  exact ⟨by decide, h.1⟩

/-! ## C8: construction with `k > n` is rejected -/

/-- **C8.**  Constructing a combination iterator with `k` greater than the
source length is rejected at construction: `self.len() - k` underflows (and
`self[0..k]` is out of bounds), modelled as the `Except.error` result, so no
iterator state is ever produced. -/
theorem combinations_rejects_k_gt_n (src : List α) (k : ℕ) (h : src.length < k) :
    combinations src k = .error () := by
  unfold combinations
  rw [if_neg (by omega)]

/-- Witness for `combinations_rejects_k_gt_n`. -/
theorem combinations_rejects_k_gt_n_witness :
    ([0].length < 2) ∧ combinations [(0 : ℕ)] 2 = .error () :=
  ⟨by decide, combinations_rejects_k_gt_n [(0 : ℕ)] 2 (by decide)⟩

/-! ## C9: exhausted combination/permutation enumerators stay exhausted -/

/-- **C9** (combinations part).  If an advance of the combination enumerator
returns the exhaustion signal, the state is left unchanged, and advancing
again returns the exhaustion signal with the state unchanged — it never
restarts (the step is a total function, so it cannot panic). -/
theorem comb_next_none {s s' : Combinations α}
    (h : Combinations.next s = (none, s')) :
    s' = s ∧ Combinations.next s' = (none, s') := by
  by_cases hf : s.first = true
  · simp [Combinations.next, hf] at h
  · rw [Bool.not_eq_true] at hf
    cases hr : rposition? (fun j => j != 0) s.indices with
    | none =>
      have hs : s' = s := by
        simp [Combinations.next, hf, hr] at h
        exact h.symm
      subst hs
      exact ⟨rfl, by simp [Combinations.next, hf, hr]⟩
    | some i => simp [Combinations.next, hf, hr] at h

/-- **C9** (permutations part).  Same statement for the permutation
enumerator: once `next` returns the exhaustion signal the state is unchanged
and every later advance returns the exhaustion signal. -/
theorem perm_next_none {s s' : Permutations α}
    (h : Permutations.next s = (none, s')) :
    s' = s ∧ Permutations.next s' = (none, s') := by
  cases hs : s.swaps.swaps with
  | nil =>
    have h' : s' = s := by
      simp [Permutations.next, hs] at h
      exact h.symm
    subst h'
    exact ⟨rfl, by simp [Permutations.next, hs]⟩
  | cons ab rest =>
    obtain ⟨a, b⟩ := ab
    rcases a with _ | a <;> rcases b with _ | b <;>
      simp [Permutations.next, hs] at h

/-- **C9.**  Combined statement: after either the combination enumerator or
the permutation enumerator signals exhaustion, every subsequent advance keeps
returning the exhausted signal forever with unchanged state. -/
theorem exhausted_stays_exhausted :
    (∀ (s s' : Combinations α), Combinations.next s = (none, s') →
      s' = s ∧ Combinations.next s' = (none, s')) ∧
    (∀ (t t' : Permutations β), Permutations.next t = (none, t') →
      t' = t ∧ Permutations.next t' = (none, t')) :=
  ⟨fun _ _ h => comb_next_none h, fun _ _ h => perm_next_none h⟩

/-- Witness for `exhausted_stays_exhausted` at concrete exhausted states. -/
theorem exhausted_stays_exhausted_witness :
    Combinations.next ({ src := [0], dest := [0], indices := [0], first := false } : Combinations ℕ)
        = (none, { src := [0], dest := [0], indices := [0], first := false }) ∧
    Permutations.next ({ dest := [0], swaps := ⟨[]⟩ } : Permutations ℕ)
        = (none, { dest := [0], swaps := ⟨[]⟩ }) :=
  ⟨((exhausted_stays_exhausted (α := ℕ) (β := ℕ)).1 ⟨[0], [0], [0], false⟩
      ⟨[0], [0], [0], false⟩ (by decide)).2,
   ((exhausted_stays_exhausted (α := ℕ) (β := ℕ)).2 ⟨[0], ⟨[]⟩⟩ ⟨[0], ⟨[]⟩⟩ (by decide)).2⟩

end Combinatorust

namespace Combinatorust

/-- **C1.**  The `lib.rs` revision of the combination transition: whenever a
non-first advance finds the rightmost slot `i` with `d[i] ≠ 0` and `h = d[i]`
(with the state arithmetically well-formed: `indices` and `dest` have the same
length `k`, `h ≤ n`, and `k ≤ n - h` so `m - k + i` does not underflow), the
advance yields the updated buffer; source indices `n-h-k+i, …, n-h-1` — the
window `[n-h-k+i, n-h)` — are copied into buffer positions `i, …, k-1`, all of
`d[i..]` becomes `h-1`, and positions left of `i` of both vectors are
untouched. -/
theorem comb_nextLib_window (s : Combinations α) (i h : ℕ)
    (hfirst : s.first = false)
    (hrp : rposition? (fun j => j != 0) s.indices = some i)
    (hh : s.indices.getD i 0 = h)
    (hlen : s.indices.length = s.dest.length)
    (hhn : h ≤ s.src.length)
    (hwin : s.dest.length ≤ s.src.length - h) :
    (Combinations.nextLib s).1 = some (Combinations.nextLib s).2.dest ∧
    (Combinations.nextLib s).2.src = s.src ∧
    (Combinations.nextLib s).2.first = false ∧
    (Combinations.nextLib s).2.dest.length = s.dest.length ∧
    (Combinations.nextLib s).2.indices.length = s.dest.length ∧
    (∀ p, p < i →
      (Combinations.nextLib s).2.dest[p]? = s.dest[p]? ∧
      (Combinations.nextLib s).2.indices[p]? = s.indices[p]?) ∧
    (∀ p, i ≤ p → p < s.dest.length →
      (Combinations.nextLib s).2.dest[p]? =
        s.src[s.src.length - h - s.dest.length + p]? ∧
      (Combinations.nextLib s).2.indices[p]? = some (h - 1)) := by
  have hik : i < s.indices.length := rposition?_lt hrp
  have hkk : i < s.dest.length := hlen ▸ hik
  set n := s.src.length with hn
  set k := s.dest.length with hk
  have hh' : s.indices[i]?.getD 0 = h := by
    rw [← List.getD_eq_getElem?_getD]
    exact hh
  have hnext : Combinations.nextLib s =
      (some (s.dest.take i ++ (s.src.drop (n - h - k + i)).take (k - i)),
       { s with
          indices := s.indices.take i ++ List.replicate (s.indices.length - i) (h - 1),
          dest := s.dest.take i ++ (s.src.drop (n - h - k + i)).take (k - i) }) := by
    unfold Combinations.nextLib
    rw [hfirst]
    simp only [Bool.false_eq_true, if_false, hrp]
    simp [hh']
  rw [hnext]
  have hdl : (s.dest.take i ++ (s.src.drop (n - h - k + i)).take (k - i)).length = k := by
    simp only [List.length_append, List.length_take, List.length_drop]
    omega
  have hil : (s.indices.take i ++
      List.replicate (s.indices.length - i) (h - 1)).length = k := by
    simp only [List.length_append, List.length_take, List.length_replicate]
    omega
  have hdt : (s.dest.take i).length = i := by
    simp only [List.length_take]
    omega
  have hit : (s.indices.take i).length = i := by
    simp only [List.length_take]
    omega
  refine ⟨rfl, rfl, hfirst, hdl, hil, ?_, ?_⟩
  · intro p hp
    constructor
    · rw [List.getElem?_append, if_pos (by omega), List.getElem?_take, if_pos hp]
    · rw [List.getElem?_append, if_pos (by omega), List.getElem?_take, if_pos hp]
  · intro p hip hpk
    constructor
    · rw [List.getElem?_append, if_neg (by omega), hdt, List.getElem?_take,
        if_pos (by omega), List.getElem?_drop]
      congr 1
      omega
    · rw [List.getElem?_append, if_neg (by omega), hit, List.getElem?_replicate,
        if_pos (by omega)]

/-- Witness for `comb_nextLib_window`: the state of the `lib.rs` iterator over
`[0, 1, 2, 3]` with `k = 2` after the first emission (`dest = [0, 1]`,
`d = [1, 1]`): the rightmost nonzero slot is `i = 1` with `h = 1`, and the
advance copies the window `[4-1-2+1, 4-1) = [2, 3)` into buffer position 1. -/
theorem comb_nextLib_window_witness :
    (Combinations.nextLib (⟨[0, 1, 2, 3], [0, 1], [1, 1], false⟩ : Combinations ℕ)).2.dest[1]?
        = some 2 ∧
    (Combinations.nextLib (⟨[0, 1, 2, 3], [0, 1], [1, 1], false⟩ : Combinations ℕ)).2.indices[1]?
        = some 0 := by
  have hmain := comb_nextLib_window (⟨[0, 1, 2, 3], [0, 1], [1, 1], false⟩ : Combinations ℕ)
    1 1 rfl (by decide) rfl rfl (by decide) (by decide)
  have h2 := hmain.2.2.2.2.2.2 1 (le_refl 1) (by decide)
  exact ⟨by rw [h2.1]; decide, h2.2⟩

end Combinatorust

namespace Combinatorust

/-! ## C10: the subsequence enumerator's invariant -/

/-- The invariant of `Subsequences` (the source comment records the length
part: "Invariant: dest and indices have the same length"): the index stack is
a strictly increasing sequence of in-bounds source positions, and `dest` is
exactly the selection of `src` along `indices`. -/
def SubsInv (s : Subsequences α) : Prop :=
  s.indices.length = s.dest.length ∧
  List.Chain' (· < ·) s.indices ∧
  (∀ x ∈ s.indices, x < s.src.length) ∧
  s.dest = sel s.src s.indices

theorem subsInv_init (src : List α) : SubsInv (subsequences src) :=
  ⟨rfl, by simp [subsequences], by simp [subsequences], rfl⟩

theorem sel_append (src : List α) (u v : List ℕ) :
    sel src (u ++ v) = sel src u ++ sel src v := by
  simp [sel]

theorem sel_concat_lt (src : List α) (u : List ℕ) {a : ℕ} (ha : a < src.length) :
    sel src (u ++ [a]) = sel src u ++ [src.get ⟨a, ha⟩] := by
  rw [sel_append]
  simp [sel, List.getElem?_eq_getElem ha]

theorem length_sel (src : List α) (c : List ℕ) (h : ∀ x ∈ c, x < src.length) :
    (sel src c).length = c.length := by
  induction c with
  | nil => rfl
  | cons a c ih =>
    have ha : a < src.length := h a (by simp)
    have ih' := ih fun x hx => h x (by simp [hx])
    simp only [sel, List.filterMap_cons] at ih' ⊢
    rw [List.getElem?_eq_getElem ha]
    simpa using ih'

/-- In a strictly increasing list `w ++ [j] ++ t`, every element of `w` is
below `j`. -/
theorem chain'_middle_lt {w t : List ℕ} {j : ℕ}
    (h : List.Chain' (· < ·) (w ++ [j] ++ t)) : ∀ a ∈ w, a < j := by
  have hp := List.chain'_iff_pairwise.mp h
  rw [List.append_assoc, List.pairwise_append] at hp
  intro a ha
  exact hp.2.2 a ha j (by simp)

/-- **C10.**  Every advance of the subsequence enumerator from a state
satisfying the invariant succeeds — the `assert![false]` arm and the two
source indexings (`src[i]` in the push step, `src[*i]` after the increment
step) are all safe; these are exactly the `Except.error` outcomes of `nextE`
— and the invariant holds again in the post-state. -/
theorem subs_nextE_inv (s : Subsequences α) (hs : SubsInv s) :
    ∃ out, Subsequences.nextE s = .ok out ∧ SubsInv out.2 := by
  obtain ⟨hlen, hchain, hbound, hdest⟩ := hs
  by_cases hf : s.first = true
  · exact ⟨_, by rw [Subsequences.nextE, if_pos hf], hlen, hchain, hbound, hdest⟩
  · rw [Bool.not_eq_true] at hf
    rw [Subsequences.nextE, if_neg (by rw [hf]; exact Bool.false_ne_true)]
    by_cases hin : (s.indices.getLast?).elim 0 (· + 1) < s.src.length
    · -- push branch
      rw [dif_pos hin]
      refine ⟨_, rfl, by simp [hlen], ?_, ?_, ?_⟩
      · rw [List.chain'_append]
        refine ⟨hchain, by simp, ?_⟩
        intro x hx y hy
        simp only [List.head?_cons, Option.mem_def, Option.some.injEq] at hy
        subst hy
        cases hl : s.indices.getLast? with
        | none => rw [hl] at hx; simp at hx
        | some b =>
          rw [Option.mem_def, hl] at hx
          injection hx with hx
          subst hx
          simp
      · intro x hx
        rcases List.mem_append.mp hx with hx | hx
        · exact hbound x hx
        · simp only [List.mem_singleton] at hx
          subst hx
          exact hin
      · rw [sel_concat_lt _ _ hin, hdest]
    · -- backtrack branch
      rw [dif_neg hin]
      dsimp only
      cases hl : s.indices.getLast? with
      | none =>
        -- empty stack: n = 0, dest is empty as well; wrap around
        have hie : s.indices = [] := List.getLast?_eq_none_iff.mp hl
        have hde : s.dest = [] := by rw [hdest, hie]; rfl
        rw [hie, hde]
        exact ⟨_, rfl, by simp [SubsInv, sel]⟩
      | some b =>
        obtain ⟨u, hu⟩ := List.getLast?_eq_some_iff.mp hl
        have hbn : b < s.src.length := hbound b (by rw [hu]; simp)
        have hdu : s.dest = sel s.src u ++ [s.src.get ⟨b, hbn⟩] := by
          rw [hdest, hu, sel_concat_lt _ _ hbn]
        rw [hu, hdu, List.dropLast_concat, List.dropLast_concat]
        cases hul : u.getLast? with
        | none =>
          have hue : u = [] := List.getLast?_eq_none_iff.mp hul
          rw [hue]
          exact ⟨_, rfl, by simp [SubsInv, sel]⟩
        | some j =>
          obtain ⟨w, hw⟩ := List.getLast?_eq_some_iff.mp hul
          have hchain' : List.Chain' (· < ·) (w ++ [j] ++ [b]) := by
            rw [← hw, ← hu] at *
            exact hchain
          have hjb : j < b := by
            have hp := List.chain'_iff_pairwise.mp hchain'
            rw [List.pairwise_append] at hp
            exact hp.2.2 j (by simp) b (by simp)
          have hjn : j + 1 < s.src.length := by
            -- b = n - 1 because the push test failed
            have : ¬ b + 1 < s.src.length := by
              rw [hu] at hin
              simpa using hin
            omega
          have hjw : j < s.src.length := by omega
          have hselu : sel s.src u = sel s.src w ++ [s.src.get ⟨j, hjw⟩] := by
            rw [hw, sel_concat_lt _ _ hjw]
          rw [hselu, hw]
          simp only [List.getLast?_concat]
          rw [dif_pos hjn]
          rw [List.dropLast_concat, List.dropLast_concat]
          refine ⟨_, rfl, ?_, ?_, ?_, ?_⟩
          · dsimp only
            have h3 : (sel s.src w).length = w.length := by
              refine length_sel _ _ fun x hx => ?_
              have := chain'_middle_lt hchain' x hx
              omega
            simp [h3]
          · dsimp only
            rw [List.chain'_append]
            refine ⟨?_, by simp, ?_⟩
            · exact (List.chain'_append.mp (List.chain'_append.mp hchain').1).1
            · intro x hx y hy
              simp only [List.head?_cons, Option.mem_def, Option.some.injEq] at hy
              subst hy
              rcases List.getLast?_eq_some_iff.mp hx with ⟨w', hw'⟩
              have hxw : x ∈ w := by rw [hw']; simp
              have := chain'_middle_lt hchain' x hxw
              omega
          · dsimp only
            intro x hx
            rcases List.mem_append.mp hx with hx | hx
            · have := chain'_middle_lt hchain' x hx
              omega
            · simp only [List.mem_singleton] at hx
              subst hx
              exact hjn
          · dsimp only
            rw [sel_concat_lt _ _ hjn]

/-- Witness for `subs_nextE_inv` at a concrete mid-enumeration state. -/
theorem subs_nextE_inv_witness :
    Subsequences.nextE (⟨[10, 20, 30], [10, 30], [0, 2], false⟩ : Subsequences ℕ)
        = Except.ok (some [20], ⟨[10, 20, 30], [20], [1], false⟩) ∧
      SubsInv (⟨[10, 20, 30], [20], [1], false⟩ : Subsequences ℕ) := by
  have hcomp : Subsequences.nextE (⟨[10, 20, 30], [10, 30], [0, 2], false⟩ : Subsequences ℕ)
      = Except.ok (some [20], ⟨[10, 20, 30], [20], [1], false⟩) := by rfl
  obtain ⟨out, hout, hinv⟩ := subs_nextE_inv
    (⟨[10, 20, 30], [10, 30], [0, 2], false⟩ : Subsequences ℕ)
    ⟨rfl, show List.Chain' (· < ·) [0, 2] by norm_num [List.chain'_cons],
      show ∀ x ∈ [0, 2], x < 3 by decide, rfl⟩
  have hout2 : out = (some [20], ⟨[10, 20, 30], [20], [1], false⟩) := by
    rw [hcomp] at hout
    exact Except.ok.inj hout.symm
  rw [hout2] at hinv
  exact ⟨hcomp, hinv⟩

end Combinatorust

namespace Combinatorust

/-! ## Generic facts about `run` -/

/-- If a row list `R` records, for consecutive states, the emitted view and
the successor state, and the last state's advance signals exhaustion with
final state `sf`, then `run` from `s₀` with enough fuel emits exactly the
recorded views and stops in `sf`. -/
theorem run_spec {σ v : Type _} (next : σ → Option v × σ) :
    ∀ (R : List (σ × v)) (s₀ sf : σ) (hR : R ≠ [])
      (_h0 : next s₀ = (some (R.head hR).2, (R.head hR).1))
      (_hch : List.Chain' (fun a b => next a.1 = (some b.2, b.1)) R)
      (_hl : next (R.getLast hR).1 = (none, sf))
      (fuel : ℕ) (_hf : R.length < fuel),
      run next fuel s₀ = (R.map Prod.snd, sf)
  | [], _, _, hR => absurd rfl hR
  | [r], s₀, sf, _ => by
    intro h0 _hch hl fuel hf
    match fuel, hf with
    | fuel + 2, _ =>
      simp only [run, h0]
      simp only [List.getLast] at hl
      cases fuel with
      | zero => simp [run, hl]
      | succ fuel => simp [run, hl]
  | r :: r' :: R, s₀, sf, _ => by
    intro h0 hch hl fuel hf
    match fuel, hf with
    | fuel + 1, hf =>
      simp only [run, h0]
      have hch' := List.chain'_cons.mp hch
      have ih := run_spec next (r' :: R) r.1 sf (by simp)
        (by simpa using hch'.1) hch'.2
        (by simpa [List.getLast_cons] using hl) fuel (by simpa using hf)
      simp [ih]

/-! ## C7: the product enumerator -/

/-- Abbreviation for the row-major pair list. -/
def rowMajor (xs : List α) (ys : List β) : List (α × β) :=
  xs.flatMap fun x => ys.map fun y => (x, y)

theorem product_next_cons (c : List β) (x : α) (xs' : List α) (y : β) (ys' : List β) :
    Product.next ⟨c, some x, xs', y :: ys'⟩ = (some (x, y), ⟨c, some x, xs', ys'⟩) := rfl

theorem product_next_refill (c : List β) (x : α) (xs' : List α) :
    Product.next ⟨c, some x, xs', []⟩ = Product.nextAux c xs' := rfl

theorem product_next_done (c : List β) (xs' : List α) (ys' : List β) :
    Product.next ⟨c, none, xs', ys'⟩ = (none, ⟨c, none, xs', ys'⟩) := rfl

theorem nextAux_xs_nil (c : List β) :
    Product.nextAux c ([] : List α) = (none, ⟨c, none, [], c⟩) := rfl

theorem nextAux_nil (xs' : List α) :
    Product.nextAux ([] : List β) xs' = (none, ⟨[], none, [], []⟩) := by
  induction xs' with
  | nil => rfl
  | cons a rest ih => simpa [Product.nextAux] using ih

theorem nextAux_cons (y : β) (ys : List β) (a : α) (rest : List α) :
    Product.nextAux (y :: ys) (a :: rest)
      = (some (a, y), ⟨y :: ys, some a, rest, ys⟩) := rfl

@[simp]
theorem rowMajor_nil_right (xs : List α) : rowMajor xs ([] : List β) = [] := by
  simp [rowMajor]

theorem product_run_aux (c : List β) (xs' : List α) :
    ∀ (x : α) (ys' : List β) (fuel : ℕ),
      ys'.length + xs'.length * c.length < fuel →
      run Product.next fuel ⟨c, some x, xs', ys'⟩ =
        (ys'.map (fun y => (x, y)) ++ rowMajor xs' c, ⟨c, none, [], c⟩) := by
  induction xs' with
  | nil =>
    intro x ys' fuel hf
    induction ys' generalizing fuel with
    | nil =>
      match fuel, hf with
      | fuel + 1, _ =>
        simp [run, product_next_refill, nextAux_xs_nil, rowMajor]
    | cons y ys'' ih =>
      match fuel, hf with
      | fuel + 1, hf =>
        simp only [run, product_next_cons]
        rw [ih fuel (by simp at hf ⊢; omega)]
        simp
  | cons a rest ihxs =>
    intro x ys' fuel hf
    induction ys' generalizing fuel with
    | nil =>
      match fuel, hf with
      | fuel + 1, hf =>
        cases c with
        | nil =>
          simp [run, product_next_refill, nextAux_nil]
        | cons y ys =>
          simp only [run, product_next_refill, nextAux_cons]
          rw [ihxs a ys fuel ?_]
          · simp [rowMajor]
          · simp only [List.length_cons, Nat.succ_mul] at hf
            simp only [List.length_cons]
            omega
    | cons y ys'' ih =>
      match fuel, hf with
      | fuel + 1, hf =>
        simp only [run, product_next_cons]
        rw [ih fuel (by simp at hf ⊢; omega)]
        simp

theorem product_run (xs : List α) (ys : List β) (fuel : ℕ)
    (hfuel : xs.length * ys.length < fuel) :
    run Product.next fuel (Product.new xs ys)
      = (rowMajor xs ys, ⟨ys, none, [], ys⟩) := by
  cases xs with
  | nil =>
    match fuel, hfuel with
    | fuel + 1, _ =>
      simp [run, Product.new, product_next_done, rowMajor]
  | cons x xs' =>
    have h := product_run_aux ys xs' x ys fuel ?_
    · simpa [Product.new, rowMajor] using h
    · simp only [List.length_cons, Nat.succ_mul] at hfuel
      omega

theorem length_rowMajor (xs : List α) (ys : List β) :
    (rowMajor xs ys).length = xs.length * ys.length := by
  induction xs with
  | nil => simp [rowMajor]
  | cons x xs ih =>
    simp only [rowMajor, List.flatMap_cons, List.length_append, List.length_map,
      List.length_cons, Nat.succ_mul] at ih ⊢
    omega

/-- **C7.**  For nonempty finite outer and inner sequences of lengths `n` and
`m`, the product enumerator yields exactly the `n·m` pairs in row-major order
(outer index slowest): the emitted list is `rowMajor`, its length is `n·m`,
the first pair is `(outer[0], inner[0])`, and — whenever the outer sequence
has a second element — pair number `m+1` (index `m`) is
`(outer[1], inner[0])`. -/
theorem product_yields_row_major (x0 : α) (xs' : List α) (y0 : β) (ys' : List β)
    (fuel : ℕ)
    (hfuel : (x0 :: xs').length * (y0 :: ys').length < fuel) :
    (run Product.next fuel (Product.new (x0 :: xs') (y0 :: ys'))).1
        = rowMajor (x0 :: xs') (y0 :: ys') ∧
    (run Product.next fuel (Product.new (x0 :: xs') (y0 :: ys'))).1.length
        = (x0 :: xs').length * (y0 :: ys').length ∧
    (run Product.next fuel (Product.new (x0 :: xs') (y0 :: ys'))).1.head?
        = some (x0, y0) ∧
    ∀ x1 xs'', xs' = x1 :: xs'' →
      (run Product.next fuel (Product.new (x0 :: xs') (y0 :: ys'))).1[(y0 :: ys').length]?
        = some (x1, y0) := by
  have hrun := product_run (x0 :: xs') (y0 :: ys') fuel hfuel
  rw [hrun]
  refine ⟨rfl, length_rowMajor _ _, ?_, ?_⟩
  · simp [rowMajor]
  · intro x1 xs'' hx
    subst hx
    show (rowMajor (x0 :: x1 :: xs'') (y0 :: ys'))[(y0 :: ys').length]? = _
    rw [show rowMajor (x0 :: x1 :: xs'') (y0 :: ys')
        = (y0 :: ys').map (fun y => (x0, y)) ++ rowMajor (x1 :: xs'') (y0 :: ys')
      from by simp [rowMajor]]
    rw [List.getElem?_append, if_neg (by simp)]
    simp [rowMajor]

/-- Witness for `product_yields_row_major` on a 2×2 product. -/
theorem product_yields_row_major_witness :
    (run Product.next 9 (Product.new [10, 11] [20, 21])).1
        = rowMajor [10, 11] [20, 21] ∧
    (run Product.next 9 (Product.new [10, 11] [20, 21])).1[2]? = some (11, 20) := by
  have h := product_yields_row_major 10 [11] 20 [21] 9 (by norm_num)
  exact ⟨h.1, h.2.2.2 11 [] rfl⟩

end Combinatorust

namespace Combinatorust

/-! ## C4: the subsequence enumerator — abstract enumeration order

The enumerator walks the subsets of `[0, n)` (as strictly increasing index
lists) in depth-first (pre-)order: `[]`, then every subset starting `0`, then
every nonempty subset starting `1`, and so on.  `subsFrom n lo` is the list of
*nonempty* strictly increasing index lists over `[lo, n)` in that order. -/
def subsFrom (n lo : ℕ) : List (List ℕ) :=
  if h : lo < n then
    (([] :: subsFrom n (lo + 1)).map (lo :: ·)) ++ subsFrom n (lo + 1)
  else []
termination_by n - lo

theorem subsFrom_eq_nil {n lo : ℕ} (h : ¬ lo < n) : subsFrom n lo = [] := by
  rw [subsFrom, dif_neg h]

theorem subsFrom_eq_cons {n lo : ℕ} (h : lo < n) :
    subsFrom n lo
      = (([] :: subsFrom n (lo + 1)).map (lo :: ·)) ++ subsFrom n (lo + 1) := by
  rw [subsFrom, dif_pos h]

/-- The successor function of the subsequence enumerator on the index stack
alone (mirroring `Subsequences::next` after the first call). -/
def gSub (n : ℕ) (c : List ℕ) : Option (List ℕ) :=
  let i := (c.getLast?).elim 0 (· + 1)
  if i < n then some (c ++ [i])
  else
    match c.dropLast.getLast? with
    | none => none
    | some j => some (c.dropLast.dropLast ++ [j + 1])

/-- The full enumerator state corresponding to index stack `c` (after the
first emission). -/
def concSub (src : List α) (c : List ℕ) : Subsequences α :=
  { src := src, dest := sel src c, indices := c, first := false }

theorem length_subsFrom (n : ℕ) :
    ∀ d lo, n - lo ≤ d → (subsFrom n lo).length = 2 ^ (n - lo) - 1 := by
  intro d
  induction d with
  | zero =>
    intro lo h
    rw [subsFrom_eq_nil (by omega)]
    have : n - lo = 0 := by omega
    simp [this]
  | succ d ih =>
    intro lo h
    by_cases hlo : lo < n
    · rw [subsFrom_eq_cons hlo]
      have h1 := ih (lo + 1) (by omega)
      have h2 : n - lo = (n - (lo + 1)) + 1 := by omega
      have h3 : 1 ≤ 2 ^ (n - (lo + 1)) := Nat.one_le_two_pow
      simp only [List.length_append, List.length_map, List.length_cons, h1, h2,
        pow_succ]
      omega
    · rw [subsFrom_eq_nil hlo]
      have : n - lo = 0 := by omega
      simp [this]

theorem mem_subsFrom (n : ℕ) :
    ∀ d lo c, n - lo ≤ d → c ∈ subsFrom n lo →
      c ≠ [] ∧ List.Chain' (· < ·) c ∧ ∀ x ∈ c, lo ≤ x ∧ x < n := by
  intro d
  induction d with
  | zero =>
    intro lo c h hc
    rw [subsFrom_eq_nil (by omega)] at hc
    simp at hc
  | succ d ih =>
    intro lo c h hc
    by_cases hlo : lo < n
    · rw [subsFrom_eq_cons hlo] at hc
      rcases List.mem_append.mp hc with hc | hc
      · rcases List.mem_map.mp hc with ⟨c0, hc0, rfl⟩
        rcases List.mem_cons.mp hc0 with rfl | hc0
        · exact ⟨by simp, by simp, by simp; omega⟩
        · obtain ⟨hne, hch, hb⟩ := ih (lo + 1) c0 (by omega) hc0
          refine ⟨by simp, ?_, ?_⟩
          · rw [List.chain'_cons']
            refine ⟨?_, hch⟩
            intro y hy
            rcases List.mem_of_mem_head? hy with hym
            have := (hb y hym).1
            omega
          · intro x hx
            rcases List.mem_cons.mp hx with rfl | hx
            · omega
            · have := hb x hx
              omega
      · obtain ⟨hne, hch, hb⟩ := ih (lo + 1) c (by omega) hc
        refine ⟨hne, hch, fun x hx => ?_⟩
        have := hb x hx
        omega
    · rw [subsFrom_eq_nil hlo] at hc
      simp at hc

theorem head_mem_of_mem_subsFrom {n lo : ℕ} {c : List ℕ}
    (hc : c ∈ subsFrom n lo) : ∃ a t, c = a :: t ∧ lo ≤ a := by
  obtain ⟨hne, -, hb⟩ := mem_subsFrom n (n - lo) lo c le_rfl hc
  cases c with
  | nil => exact absurd rfl hne
  | cons a t => exact ⟨a, t, rfl, (hb a (by simp)).1⟩

theorem nodup_subsFrom (n : ℕ) :
    ∀ d lo, n - lo ≤ d → ([] :: subsFrom n lo).Nodup := by
  intro d
  induction d with
  | zero =>
    intro lo h
    rw [subsFrom_eq_nil (by omega)]
    simp
  | succ d ih =>
    intro lo h
    by_cases hlo : lo < n
    · rw [subsFrom_eq_cons hlo]
      have ihn := ih (lo + 1) (by omega)
      rw [List.nodup_cons]
      constructor
      · intro hmem
        rcases List.mem_append.mp hmem with hc | hc
        · rcases List.mem_map.mp hc with ⟨c0, -, hc0⟩
          exact List.cons_ne_nil _ _ hc0
        · exact (mem_subsFrom n (n - (lo + 1)) (lo + 1) [] le_rfl hc).1 rfl
      · rw [List.nodup_append]
        refine ⟨ihn.map ?_, ihn.of_cons, ?_⟩
        · intro x y hxy
          simpa using hxy
        · intro c hc hc'
          rcases List.mem_map.mp hc with ⟨c0, -, rfl⟩
          obtain ⟨a, t, heq, ha⟩ := head_mem_of_mem_subsFrom hc'
          injection heq with h1 h2
          omega
    · rw [subsFrom_eq_nil hlo]
      simp

end Combinatorust

namespace Combinatorust

/-! ## C4: chain structure of the depth-first subsequence order -/

theorem gSub_concat_lt {n : ℕ} (u : List ℕ) (a : ℕ) (h : a + 1 < n) :
    gSub n (u ++ [a]) = some (u ++ [a] ++ [a + 1]) := by
  simp [gSub, List.getLast?_concat, h]

theorem gSub_nil_pos {n : ℕ} (h : 0 < n) : gSub n [] = some [0] := by
  simp [gSub, h]

theorem gSub_nil_zero : gSub 0 [] = none := by
  simp [gSub]

theorem gSub_concat_ge {n : ℕ} (u : List ℕ) (j b : ℕ) (hb : ¬ b + 1 < n) :
    gSub n (u ++ [j] ++ [b]) = some (u ++ [j + 1]) := by
  simp [gSub, List.getLast?_concat, hb, List.dropLast_concat]

theorem gSub_single_ge {n b : ℕ} (hb : ¬ b + 1 < n) : gSub n [b] = none := by
  simp [gSub, hb]

/-- Strengthen a chain along memberships. -/
theorem chain'_imp_mem {R S : α → α → Prop} :
    ∀ {l : List α}, (∀ a ∈ l, ∀ b ∈ l, R a b → S a b) → List.Chain' R l →
      List.Chain' S l
  | [], _, _ => List.chain'_nil
  | [_], _, _ => List.chain'_singleton _
  | a :: b :: l, himp, hch => by
    rw [List.chain'_cons] at hch ⊢
    refine ⟨himp a (by simp) b (by simp) hch.1, ?_⟩
    exact chain'_imp_mem (fun x hx y hy hr => himp x (by simp [hx]) y (by simp [hy]) hr)
      hch.2

/-- The core chain lemma: in every subtree of the depth-first walk (current
prefix `pre`, children drawn from `[lo, n)`), consecutive entries of
`subsFrom` are related by the enumerator's successor function `gSub`, the
first entry is `pre ++ [lo]`, and the last is `pre ++ [n-1]`. -/
theorem chain_subsFrom (n : ℕ) :
    ∀ d lo (pre : List ℕ), n - lo ≤ d →
      List.Chain' (fun a b => gSub n a = some b) ((subsFrom n lo).map (pre ++ ·)) ∧
      (lo < n →
        ((subsFrom n lo).map (pre ++ ·)).head? = some (pre ++ [lo]) ∧
        ((subsFrom n lo).map (pre ++ ·)).getLast? = some (pre ++ [n - 1])) := by
  intro d
  induction d with
  | zero =>
    intro lo pre h
    rw [subsFrom_eq_nil (by omega)]
    exact ⟨List.chain'_nil, fun hlo => absurd hlo (by omega)⟩
  | succ d ih =>
    intro lo pre h
    by_cases hlo : lo < n
    · rw [subsFrom_eq_cons hlo]
      have hcomp : (fun x => pre ++ x) ∘ (fun x : List ℕ => lo :: x)
          = fun x => (pre ++ [lo]) ++ x := by
        funext x
        simp
      have hsplit :
          ((([] :: subsFrom n (lo + 1)).map (lo :: ·)) ++ subsFrom n (lo + 1)).map
              (pre ++ ·)
            = ((pre ++ [lo]) :: (subsFrom n (lo + 1)).map ((pre ++ [lo]) ++ ·))
              ++ (subsFrom n (lo + 1)).map (pre ++ ·) := by
        rw [List.map_append, List.map_map, hcomp, List.map_cons, List.append_nil]
      rw [hsplit]
      have ih1 := ih (lo + 1) (pre ++ [lo]) (by omega)
      have ih2 := ih (lo + 1) pre (by omega)
      by_cases hlo1 : lo + 1 < n
      · have ch1 := ih1.1
        have hd1 := (ih1.2 hlo1).1
        have lt1 := (ih1.2 hlo1).2
        have ch2 := ih2.1
        have hd2 := (ih2.2 hlo1).1
        have lt2 := (ih2.2 hlo1).2
        have hS : subsFrom n (lo + 1) ≠ [] := by
          intro hS
          rw [hS] at hd2
          simp at hd2
        have hSm : (subsFrom n (lo + 1)).map ((pre ++ [lo]) ++ ·) ≠ [] := by
          simpa using hS
        have hSm2 : (subsFrom n (lo + 1)).map (pre ++ ·) ≠ [] := by
          simpa using hS
        refine ⟨?_, fun _ => ⟨?_, ?_⟩⟩
        · rw [List.chain'_append]
          refine ⟨?_, ch2, ?_⟩
          · rw [List.chain'_cons']
            refine ⟨?_, ch1⟩
            intro y hy
            rw [Option.mem_def, hd1] at hy
            injection hy with hy
            subst hy
            exact gSub_concat_lt pre lo hlo1
          · intro x hx y hy
            rw [Option.mem_def] at hx hy
            rw [List.getLast?_cons, lt1] at hx
            simp only [Option.getD_some, Option.some.injEq] at hx
            subst hx
            rw [hd2] at hy
            injection hy with hy
            subst hy
            exact gSub_concat_ge pre lo (n - 1) (by omega)
        · simp
        · rw [List.getLast?_append, lt2]
          simp
      · have hS : subsFrom n (lo + 1) = [] := subsFrom_eq_nil hlo1
        rw [hS]
        simp only [List.map_nil, List.append_nil]
        refine ⟨List.chain'_singleton _, fun _ => ⟨by simp, ?_⟩⟩
        have : lo = n - 1 := by omega
        simp [this]
    · rw [subsFrom_eq_nil hlo]
      exact ⟨List.chain'_nil, fun h' => absurd h' hlo⟩

end Combinatorust

namespace Combinatorust

/-! ## C4: simulation of the concrete step by `gSub`, and the main theorem -/

theorem subs_step (src : List α) (c : List ℕ) (hch : List.Chain' (· < ·) c)
    (hb : ∀ x ∈ c, x < src.length) :
    Subsequences.nextE (concSub src c) =
      match gSub src.length c with
      | some c' => Except.ok (some (sel src c'), concSub src c')
      | none => Except.ok (none, subsequences src) := by
  rw [Subsequences.nextE]
  dsimp only [concSub]
  rw [if_neg Bool.false_ne_true]
  by_cases hin : (c.getLast?).elim 0 (· + 1) < src.length
  · rw [dif_pos hin]
    simp only [gSub]
    rw [if_pos hin]
    dsimp only
    rw [sel_concat_lt src c hin]
  · rw [dif_neg hin]
    simp only [gSub]
    rw [if_neg hin]
    cases hl : c.getLast? with
    | none =>
      have hce : c = [] := List.getLast?_eq_none_iff.mp hl
      subst hce
      rfl
    | some b =>
      obtain ⟨u, rfl⟩ := List.getLast?_eq_some_iff.mp hl
      have hbn : b < src.length := hb b (by simp)
      rw [sel_concat_lt src u hbn, List.dropLast_concat, List.dropLast_concat]
      cases hul : u.getLast? with
      | none =>
        have hue : u = [] := List.getLast?_eq_none_iff.mp hul
        subst hue
        rfl
      | some j =>
        obtain ⟨w, rfl⟩ := List.getLast?_eq_some_iff.mp hul
        have hjb : j < b := by
          have hp := List.chain'_iff_pairwise.mp hch
          rw [List.pairwise_append] at hp
          exact hp.2.2 j (by simp) b (by simp)
        have hjn : j + 1 < src.length := by omega
        have hjw : j < src.length := by omega
        rw [sel_concat_lt src w hjw]
        simp only [List.getLast?_concat]
        rw [dif_pos hjn]
        simp only [List.dropLast_concat]
        rw [sel_concat_lt src w hjn]

/-- The full depth-first emission order: the empty subsequence first, then
every nonempty strictly increasing index list over `[0, n)`. -/
def fullSubs (n : ℕ) : List (List ℕ) := [] :: subsFrom n 0

theorem fullSubs_eq (n : ℕ) : fullSubs n = [] :: subsFrom n 0 := rfl

theorem chain_subsFrom_root (n : ℕ) :
    List.Chain' (fun a b => gSub n a = some b) (subsFrom n 0) ∧
    (0 < n →
      (subsFrom n 0).head? = some [0] ∧ (subsFrom n 0).getLast? = some [n - 1]) := by
  have h := chain_subsFrom n (n - 0) 0 [] le_rfl
  simpa only [List.nil_append, List.map_id'] using h

theorem chain_fullSubs (n : ℕ) :
    List.Chain' (fun a b => gSub n a = some b) (fullSubs n) := by
  rw [fullSubs_eq, List.chain'_cons']
  refine ⟨?_, (chain_subsFrom_root n).1⟩
  intro y hy
  by_cases hn : 0 < n
  · rw [Option.mem_def, ((chain_subsFrom_root n).2 hn).1] at hy
    injection hy with hy
    subst hy
    exact gSub_nil_pos hn
  · rw [subsFrom_eq_nil (by omega)] at hy
    simp at hy

theorem mem_of_getLast?_eq {l : List α} {a : α} (h : l.getLast? = some a) :
    a ∈ l := by
  obtain ⟨ys, rfl⟩ := List.getLast?_eq_some_iff.mp h
  simp

theorem getLast?_fullSubs_spec (n : ℕ) :
    ∃ lc, (fullSubs n).getLast? = some lc ∧ gSub n lc = none := by
  by_cases hn : 0 < n
  · refine ⟨[n - 1], ?_, gSub_single_ge (by omega)⟩
    rw [fullSubs_eq, List.getLast?_cons, ((chain_subsFrom_root n).2 hn).2]
    rfl
  · have hn0 : n = 0 := by omega
    subst hn0
    refine ⟨[], ?_, gSub_nil_zero⟩
    rw [fullSubs_eq, subsFrom_eq_nil (by omega)]
    rfl

theorem valid_mem_fullSubs {n : ℕ} {c : List ℕ} (hc : c ∈ fullSubs n) :
    List.Chain' (· < ·) c ∧ ∀ x ∈ c, x < n := by
  rcases List.mem_cons.mp hc with rfl | hc
  · exact ⟨by simp, by simp⟩
  · obtain ⟨-, hch, hb⟩ := mem_subsFrom n n 0 c (by omega) hc
    exact ⟨hch, fun x hx => (hb x hx).2⟩

theorem length_fullSubs (n : ℕ) : (fullSubs n).length = 2 ^ n := by
  have h1 := length_subsFrom n n 0 (by omega)
  rw [Nat.sub_zero] at h1
  rw [fullSubs_eq]
  simp only [List.length_cons, h1]
  have : 1 ≤ 2 ^ n := Nat.one_le_two_pow
  omega

theorem nodup_fullSubs (n : ℕ) : (fullSubs n).Nodup :=
  nodup_subsFrom n n 0 (by omega)

theorem sel_sublist (src : List α) :
    ∀ (c : List ℕ) (lo : ℕ), List.Chain' (· < ·) c →
      (∀ x ∈ c, lo ≤ x ∧ x < src.length) → (sel src c).Sublist (src.drop lo) := by
  intro c
  induction c with
  | nil =>
    intro lo _ _
    simp [sel]
  | cons a c' ih =>
    intro lo hch hb
    have ha : a < src.length := (hb a (by simp)).2
    have hsel : sel src (a :: c') = src.get ⟨a, ha⟩ :: sel src c' := by
      simp [sel, List.getElem?_eq_getElem ha]
    rw [hsel]
    have hpw := List.chain'_iff_pairwise.mp hch
    have hc' : ∀ x ∈ c', a + 1 ≤ x ∧ x < src.length := fun x hx =>
      ⟨(List.pairwise_cons.mp hpw).1 x hx, (hb x (by simp [hx])).2⟩
    have ih' := ih (a + 1) hch.tail hc'
    have hdecomp : src.drop a = src.get ⟨a, ha⟩ :: src.drop (a + 1) := by
      rw [List.drop_eq_getElem_cons ha]
      rfl
    have h1 : (src.get ⟨a, ha⟩ :: sel src c').Sublist (src.drop a) := by
      rw [hdecomp]
      exact List.Sublist.cons₂ _ ih'
    have h2 : (src.drop a).Sublist (src.drop lo) := by
      have heq : src.drop a = List.drop (a - lo) (src.drop lo) := by
        rw [List.drop_drop]
        congr 1
        have := (hb a (by simp)).1
        omega
      rw [heq]
      exact List.drop_sublist _ _
    exact h1.trans h2

/-- **C4.**  For a source of length `n`, the subsequence enumerator yields
exactly `2^n` views before signalling exhaustion — one per subset of source
positions, each enumerated exactly once (`fullSubs` is duplicate-free as a
list of index selections; views over a source with equal elements can of
course coincide as value lists) — the first view is the empty subsequence,
every view is a subsequence (an order-preserving selection) of the source,
and after exhaustion the enumerator has re-armed to its freshly-constructed
state, so driving it again replays the identical sequence of views. -/
theorem subsequences_enumeration (src : List α) (fuel : ℕ)
    (hfuel : 2 ^ src.length < fuel) :
    run Subsequences.next fuel (subsequences src)
        = ((fullSubs src.length).map (sel src), subsequences src) ∧
    (run Subsequences.next fuel (subsequences src)).1.length = 2 ^ src.length ∧
    (run Subsequences.next fuel (subsequences src)).1.head? = some [] ∧
    (∀ view ∈ (run Subsequences.next fuel (subsequences src)).1,
      view.Sublist src) ∧
    (fullSubs src.length).Nodup ∧
    (run Subsequences.next fuel
        (run Subsequences.next fuel (subsequences src)).2).1
      = (run Subsequences.next fuel (subsequences src)).1 := by
  set n := src.length with hn
  have hmain : run Subsequences.next fuel (subsequences src)
      = ((fullSubs n).map (sel src), subsequences src) := by
    have hR : ((fullSubs n).map fun c => (concSub src c, sel src c)) ≠ [] := by
      simp [fullSubs]
    have h0 : Subsequences.next (subsequences src)
        = (some ((((fullSubs n).map fun c => (concSub src c, sel src c)).head hR).2),
           (((fullSubs n).map fun c => (concSub src c, sel src c)).head hR).1) := by
      rfl
    have hch : List.Chain'
        (fun a b => Subsequences.next a.1 = (some b.2, b.1))
        ((fullSubs n).map fun c => (concSub src c, sel src c)) := by
      rw [List.chain'_map]
      apply chain'_imp_mem (R := fun a b => gSub n a = some b)
      · intro a ha b hb hg
        obtain ⟨hcha, hba⟩ := valid_mem_fullSubs ha
        have hstep := subs_step src a hcha (by rw [← hn]; exact hba)
        rw [← hn] at hstep
        rw [hg] at hstep
        rw [Subsequences.next, hstep]
      · exact chain_fullSubs n
    obtain ⟨lc, hlc, hglc⟩ := getLast?_fullSubs_spec n
    have hlcmem : lc ∈ fullSubs n := mem_of_getLast?_eq hlc
    have hlast : Subsequences.next
        ((((fullSubs n).map fun c => (concSub src c, sel src c)).getLast hR).1)
        = (none, subsequences src) := by
      have hne : fullSubs n ≠ [] := by simp [fullSubs_eq]
      have h1 : (((fullSubs n).map fun c => (concSub src c, sel src c)).getLast hR)
          = (concSub src lc, sel src lc) := by
        have h2 := List.getLast?_eq_getLast
          ((fullSubs n).map fun c => (concSub src c, sel src c)) hR
        rw [List.getLast?_map, hlc] at h2
        injection h2 with h2
        exact h2.symm
      rw [h1]
      obtain ⟨hchl, hbl⟩ := valid_mem_fullSubs hlcmem
      have hstep := subs_step src lc hchl (by rw [← hn]; exact hbl)
      rw [← hn] at hstep
      rw [hglc] at hstep
      rw [Subsequences.next, hstep]
    have hspec := run_spec Subsequences.next
      ((fullSubs n).map fun c => (concSub src c, sel src c))
      (subsequences src) (subsequences src) hR h0 hch hlast fuel
      (by rw [List.length_map, length_fullSubs]; omega)
    rw [hspec, List.map_map]
    rfl
  refine ⟨hmain, ?_, ?_, ?_, nodup_fullSubs n, ?_⟩
  · rw [hmain]
    simp [length_fullSubs]
  · rw [hmain]
    rw [fullSubs_eq]
    rfl
  · rw [hmain]
    intro view hview
    simp only [List.mem_map] at hview
    obtain ⟨c, hc, rfl⟩ := hview
    obtain ⟨hch, hb⟩ := valid_mem_fullSubs hc
    have := sel_sublist src c 0 hch (fun x hx => ⟨Nat.zero_le x, by rw [← hn]; exact hb x hx⟩)
    simpa using this
  · rw [hmain]
    dsimp only
    rw [hmain]

/-- Witness for `subsequences_enumeration` on the source `[5, 7]`. -/
theorem subsequences_enumeration_witness :
    (run Subsequences.next 5 (subsequences [5, 7])).1.length = 2 ^ 2 ∧
    (run Subsequences.next 5 (subsequences [5, 7])).1.head? = some [] := by
  have h := subsequences_enumeration [5, 7] 5 (by norm_num)
  exact ⟨h.2.1, h.2.2.1⟩

end Combinatorust

namespace Combinatorust

/-! ## C3: the combination enumerator — abstract order and counting -/

/-- The lexicographically ordered list of strictly increasing `k`-element
index lists over `[lo, n)`. -/
def combsFrom (n lo k : ℕ) : List (List ℕ) :=
  if k = 0 then [[]]
  else if h : lo < n then
    ((combsFrom n (lo + 1) (k - 1)).map (lo :: ·)) ++ combsFrom n (lo + 1) k
  else []
termination_by n - lo

theorem combsFrom_zero (n lo : ℕ) : combsFrom n lo 0 = [[]] := by
  rw [combsFrom]
  simp

theorem combsFrom_eq_nil {n lo k : ℕ} (hk : k ≠ 0) (h : ¬ lo < n) :
    combsFrom n lo k = [] := by
  rw [combsFrom, if_neg hk, dif_neg h]

theorem combsFrom_eq_cons {n lo k : ℕ} (hk : k ≠ 0) (h : lo < n) :
    combsFrom n lo k
      = ((combsFrom n (lo + 1) (k - 1)).map (lo :: ·)) ++ combsFrom n (lo + 1) k := by
  rw [combsFrom, if_neg hk, dif_pos h]

/-- The difference array of `Combinations`: `indices[i] = n - k + i - j_i` for
the source index `j_i` held in slot `i` (the source comment of the struct). -/
def dOf (n : ℕ) (c : List ℕ) : List ℕ :=
  (List.range c.length).map fun p => n - c.length + p - c.getD p 0

/-- The full iterator state corresponding to the combination `c` (after the
first emission). -/
def concComb (src : List α) (c : List ℕ) : Combinations α :=
  { src := src, dest := sel src c, indices := dOf src.length c, first := false }

/-- The abstract successor: find the rightmost slot whose difference entry is
nonzero and reset the suffix from the incremented source index. -/
def succComb (n : ℕ) (c : List ℕ) : Option (List ℕ) :=
  match rposition? (fun j => j != 0) (dOf n c) with
  | none => none
  | some i => some (c.take i ++ List.range' (c.getD i 0 + 1) (c.length - i))

theorem length_dOf (n : ℕ) (c : List ℕ) : (dOf n c).length = c.length := by
  simp [dOf]

theorem getD_dOf {n : ℕ} {c : List ℕ} {p : ℕ} (hp : p < c.length) :
    (dOf n c).getD p 0 = n - c.length + p - c.getD p 0 := by
  rw [dOf, List.getD_eq_getElem?_getD, List.getElem?_map, List.getElem?_range hp]
  rfl

theorem rposition?_eq_some_of {p : α → Bool} {l : List α} {i : ℕ} (d : α)
    (hi : i < l.length) (hp : p (l.getD i d) = true)
    (hafter : ∀ q, i < q → q < l.length → p (l.getD q d) = false) :
    rposition? p l = some i := by
  induction l generalizing i with
  | nil => simp at hi
  | cons a l ih =>
    cases i with
    | zero =>
      have hnone : rposition? p l = none := by
        apply rposition?_eq_none
        intro x hx
        obtain ⟨q, hq, rfl⟩ := List.mem_iff_getElem.mp hx
        have := hafter (q + 1) (by omega) (by simpa using Nat.succ_lt_succ hq)
        rw [List.getD_cons_succ] at this
        rwa [List.getD_eq_getElem?_getD, List.getElem?_eq_getElem hq] at this
      rw [rposition?, hnone]
      rw [List.getD_cons_zero] at hp
      simp [hp]
    | succ i =>
      have hsome : rposition? p l = some i := by
        apply ih (by simpa using Nat.lt_of_succ_lt_succ hi)
          (by rwa [List.getD_cons_succ] at hp)
        intro q hq hql
        have := hafter (q + 1) (by omega) (by simpa using Nat.succ_lt_succ hql)
        rwa [List.getD_cons_succ] at this
      rw [rposition?, hsome]

theorem length_combsFrom (n : ℕ) :
    ∀ d lo k, n - lo ≤ d → (combsFrom n lo k).length = (n - lo).choose k := by
  intro d
  induction d with
  | zero =>
    intro lo k h
    cases k with
    | zero => simp [combsFrom_zero]
    | succ k =>
      rw [combsFrom_eq_nil (by omega) (by omega)]
      have h0 : n - lo = 0 := by omega
      rw [h0]
      simp [Nat.choose_eq_zero_iff]
  | succ d ih =>
    intro lo k h
    cases k with
    | zero => simp [combsFrom_zero]
    | succ k =>
      by_cases hlo : lo < n
      · rw [combsFrom_eq_cons (by omega) hlo]
        have h1 := ih (lo + 1) k (by omega)
        have h2 := ih (lo + 1) (k + 1) (by omega)
        have h3 : n - lo = (n - (lo + 1)) + 1 := by omega
        simp only [List.length_append, List.length_map, Nat.add_sub_cancel, h1, h2, h3]
        rw [Nat.choose_succ_succ]
      · rw [combsFrom_eq_nil (by omega) hlo]
        have h0 : n - lo = 0 := by omega
        rw [h0]
        simp [Nat.choose_eq_zero_iff]

theorem combsFrom_ne_nil {n lo k : ℕ} (h : k ≤ n - lo) : combsFrom n lo k ≠ [] := by
  intro hc
  have := length_combsFrom n (n - lo) lo k le_rfl
  rw [hc] at this
  simp only [List.length_nil] at this
  have := Nat.choose_eq_zero_iff.mp this.symm
  omega

theorem mem_combsFrom (n : ℕ) :
    ∀ d lo k c, n - lo ≤ d → c ∈ combsFrom n lo k →
      c.length = k ∧
      (∀ p, p < k → lo + p ≤ c.getD p 0 ∧ c.getD p 0 + (k - p) ≤ n) := by
  intro d
  induction d with
  | zero =>
    intro lo k c h hc
    cases k with
    | zero =>
      rw [combsFrom_zero] at hc
      simp at hc
      subst hc
      exact ⟨rfl, by omega⟩
    | succ k =>
      rw [combsFrom_eq_nil (by omega) (by omega)] at hc
      simp at hc
  | succ d ih =>
    intro lo k c h hc
    cases k with
    | zero =>
      rw [combsFrom_zero] at hc
      simp at hc
      subst hc
      exact ⟨rfl, by omega⟩
    | succ k =>
      by_cases hlo : lo < n
      · rw [combsFrom_eq_cons (by omega) hlo] at hc
        rcases List.mem_append.mp hc with hc | hc
        · rcases List.mem_map.mp hc with ⟨c0, hc0, rfl⟩
          simp only [Nat.add_sub_cancel] at hc0
          obtain ⟨hlen, hbnd⟩ := ih (lo + 1) k c0 (by omega) hc0
          refine ⟨by simp [hlen], ?_⟩
          intro p hp
          cases p with
          | zero =>
            rw [List.getD_cons_zero]
            cases k with
            | zero => omega
            | succ k' =>
              have := hbnd 0 (by omega)
              omega
          | succ p =>
            rw [List.getD_cons_succ]
            have := hbnd p (by omega)
            omega
        · obtain ⟨hlen, hbnd⟩ := ih (lo + 1) (k + 1) c (by omega) hc
          refine ⟨hlen, fun p hp => ?_⟩
          have := hbnd p hp
          omega
      · rw [combsFrom_eq_nil (by omega) hlo] at hc
        simp at hc

theorem nodup_combsFrom (n : ℕ) :
    ∀ d lo k, n - lo ≤ d → (combsFrom n lo k).Nodup := by
  intro d
  induction d with
  | zero =>
    intro lo k h
    cases k with
    | zero => simp [combsFrom_zero]
    | succ k =>
      rw [combsFrom_eq_nil (by omega) (by omega)]
      simp
  | succ d ih =>
    intro lo k h
    cases k with
    | zero => simp [combsFrom_zero]
    | succ k =>
      by_cases hlo : lo < n
      · rw [combsFrom_eq_cons (by omega) hlo]
        rw [List.nodup_append]
        refine ⟨(ih (lo + 1) _ (by omega)).map ?_, ih (lo + 1) _ (by omega), ?_⟩
        · intro x y hxy
          simpa using hxy
        · intro c hc hc'
          rcases List.mem_map.mp hc with ⟨c0, -, rfl⟩
          have := (mem_combsFrom n (n - (lo + 1)) (lo + 1) (k + 1) (lo :: c0)
            le_rfl hc').2 0 (by omega)
          rw [List.getD_cons_zero] at this
          omega
      · rw [combsFrom_eq_nil (by omega) hlo]
        simp

end Combinatorust

namespace Combinatorust

/-! ## C3: the successor computation and the chain structure -/

theorem le_of_combsFrom_ne_nil {n lo k : ℕ} (h : combsFrom n lo k ≠ []) :
    k ≤ n - lo := by
  by_contra hk
  have hlen := length_combsFrom n (n - lo) lo k le_rfl
  rw [(Nat.choose_eq_zero_iff.mpr (by omega) : (n - lo).choose k = 0)] at hlen
  exact h (List.length_eq_zero.mp hlen)

/-- The advance out of the state "prefix `u`, then `j`, then the `r` largest
source indices": rightmost nonzero difference at slot `u.length`, suffix
reset to `j+1, j+2, …`. -/
theorem succComb_spec (n : ℕ) (u : List ℕ) (j r : ℕ)
    (hK : u.length + 1 + r ≤ n) (hj : j + r + 2 ≤ n) :
    succComb n (u ++ [j] ++ List.range' (n - r) r)
      = some (u ++ List.range' (j + 1) (r + 1)) := by
  set cl := u ++ [j] ++ List.range' (n - r) r with hc
  have hlen : cl.length = u.length + 1 + r := by
    simp only [hc, List.length_append, List.length_cons, List.length_nil,
      List.length_range']
  have hgetj : cl.getD u.length 0 = j := by
    have hget : cl[u.length]? = some j := by
      rw [hc, List.append_assoc, List.getElem?_append, if_neg (lt_irrefl _),
        Nat.sub_self]
      simp
    rw [List.getD_eq_getElem?_getD, hget]
    rfl
  have hsuffix : ∀ t, t < r → cl.getD (u.length + 1 + t) 0 = n - r + t := by
    intro t ht
    have hget : cl[u.length + 1 + t]? = some (n - r + t) := by
      rw [hc, List.getElem?_append,
        if_neg (by simp only [List.length_append, List.length_cons,
          List.length_nil]; omega)]
      have hidx : u.length + 1 + t - (u ++ [j]).length = t := by simp
      rw [hidx, List.getElem?_range' _ _ ht]
      simp
    rw [List.getD_eq_getElem?_getD, hget]
    rfl
  have hrp : rposition? (fun x => x != 0) (dOf n cl) = some u.length := by
    apply rposition?_eq_some_of 0
    · rw [length_dOf, hlen]
      omega
    · rw [getD_dOf (by rw [hlen]; omega), hlen, hgetj]
      simp only [bne_iff_ne, ne_eq]
      omega
    · intro q hq hql
      rw [length_dOf, hlen] at hql
      obtain ⟨t, rfl, ht⟩ : ∃ t, q = u.length + 1 + t ∧ t < r :=
        ⟨q - u.length - 1, by omega, by omega⟩
      rw [getD_dOf (by rw [hlen]; omega), hlen, hsuffix t ht]
      simp only [bne_eq_false_iff_eq]
      omega
  have htake : cl.take u.length = u := by
    rw [hc, List.append_assoc]
    exact List.take_left' rfl
  have hcount : cl.length - u.length = r + 1 := by omega
  rw [succComb, hrp]
  show some (cl.take u.length ++ List.range' (cl.getD u.length 0 + 1)
      (cl.length - u.length)) = _
  rw [htake, hgetj, hcount]

theorem append_cons_comp (pre : List ℕ) (lo : ℕ) :
    ((fun x => pre ++ x) ∘ fun x : List ℕ => lo :: x)
      = fun x => (pre ++ [lo]) ++ x := by
  funext x
  simp

theorem chain_combsFrom (n : ℕ) :
    ∀ d lo k (pre : List ℕ), n - lo ≤ d → pre.length + k ≤ n →
      List.Chain' (fun a b => succComb n a = some b)
        ((combsFrom n lo k).map (pre ++ ·)) ∧
      (k ≤ n - lo →
        ((combsFrom n lo k).map (pre ++ ·)).head?
            = some (pre ++ List.range' lo k) ∧
        ((combsFrom n lo k).map (pre ++ ·)).getLast?
            = some (pre ++ List.range' (n - k) k)) := by
  intro d
  induction d with
  | zero =>
    intro lo k pre h hpre
    cases k with
    | zero =>
      rw [combsFrom_zero]
      exact ⟨List.chain'_singleton _, fun _ => ⟨by simp, by simp⟩⟩
    | succ k =>
      rw [combsFrom_eq_nil (by omega) (by omega)]
      exact ⟨List.chain'_nil, fun hk => absurd hk (by omega)⟩
  | succ d ih =>
    intro lo k pre h hpre
    cases k with
    | zero =>
      rw [combsFrom_zero]
      exact ⟨List.chain'_singleton _, fun _ => ⟨by simp, by simp⟩⟩
    | succ k =>
      by_cases hlo : lo < n
      · rw [combsFrom_eq_cons (by omega) hlo, List.map_append, List.map_map,
          append_cons_comp]
        simp only [Nat.add_sub_cancel]
        have ih1 := ih (lo + 1) k (pre ++ [lo]) (by omega) (by simp; omega)
        have ih2 := ih (lo + 1) (k + 1) pre (by omega) hpre
        refine ⟨?_, ?_⟩
        · rw [List.chain'_append]
          refine ⟨ih1.1, ih2.1, ?_⟩
          intro x hx y hy
          rw [Option.mem_def] at hx hy
          have hp1ne : combsFrom n (lo + 1) k ≠ [] := by
            intro he
            rw [he] at hx
            simp at hx
          have hp2ne : combsFrom n (lo + 1) (k + 1) ≠ [] := by
            intro he
            rw [he] at hy
            simp at hy
          have hk1 : k ≤ n - (lo + 1) := le_of_combsFrom_ne_nil hp1ne
          have hk2 : k + 1 ≤ n - (lo + 1) := le_of_combsFrom_ne_nil hp2ne
          rw [(ih1.2 hk1).2] at hx
          rw [(ih2.2 hk2).1] at hy
          injection hx with hx
          injection hy with hy
          subst hx
          subst hy
          have := succComb_spec n pre lo k (by omega) (by omega)
          rw [List.append_assoc] at this ⊢
          exact this
        · intro hk
          have hk1 : k ≤ n - (lo + 1) := by omega
          constructor
          · have hp1ne : (combsFrom n (lo + 1) k).map ((pre ++ [lo]) ++ ·) ≠ [] := by
              simpa using combsFrom_ne_nil hk1
            rw [List.head?_append_of_ne_nil _ hp1ne, (ih1.2 hk1).1]
            rw [List.range'_succ]
            simp
          · by_cases hk2 : k + 1 ≤ n - (lo + 1)
            · have hp2ne : (combsFrom n (lo + 1) (k + 1)).map (pre ++ ·) ≠ [] := by
                simpa using combsFrom_ne_nil hk2
              rw [List.getLast?_append, (ih2.2 hk2).2]
              simp
            · have hp2nil : combsFrom n (lo + 1) (k + 1) = [] := by
                by_contra hne
                exact hk2 (le_of_combsFrom_ne_nil hne)
              rw [hp2nil]
              simp only [List.map_nil, List.append_nil]
              rw [(ih1.2 hk1).2]
              have hloeq : lo = n - (k + 1) := by omega
              have hsucc : List.range' (n - (k + 1)) (k + 1)
                  = (n - (k + 1)) :: List.range' (n - k) k := by
                rw [List.range'_succ]
                have harith : n - (k + 1) + 1 = n - k := by omega
                rw [harith]
              rw [hsucc, ← hloeq]
              simp
      · rw [combsFrom_eq_nil (by omega) hlo]
        exact ⟨List.chain'_nil, fun hk => absurd hk (by omega)⟩

end Combinatorust

namespace Combinatorust

/-! ## C3: simulation of the concrete `Combinations::next` by `succComb` -/

theorem getElem?_dOf (n : ℕ) (c : List ℕ) (p : ℕ) :
    (dOf n c)[p]?
      = if p < c.length then some (n - c.length + p - c.getD p 0) else none := by
  rw [dOf, List.getElem?_map]
  by_cases hp : p < c.length
  · rw [List.getElem?_range hp, if_pos hp]
    rfl
  · rw [if_neg hp]
    have : (List.range c.length)[p]? = none := by
      simp
      omega
    rw [this]
    rfl

theorem sel_take (src : List α) (c : List ℕ) (i : ℕ) (hi : i ≤ c.length)
    (hmem : ∀ x ∈ c, x < src.length) :
    (sel src c).take i = sel src (c.take i) := by
  conv_lhs => rw [← List.take_append_drop i c]
  rw [sel_append]
  apply List.take_left'
  rw [length_sel]
  · simp
    omega
  · intro x hx
    exact hmem x (List.mem_of_mem_take hx)

theorem sel_range' (src : List α) :
    ∀ (len a : ℕ), a + len ≤ src.length →
      sel src (List.range' a len) = (src.drop a).take len := by
  intro len
  induction len with
  | zero =>
    intro a h
    simp [sel]
  | succ len ih =>
    intro a h
    rw [List.range'_succ]
    have ha : a < src.length := by omega
    have hcons : sel src (a :: List.range' (a + 1) len)
        = src.get ⟨a, ha⟩ :: sel src (List.range' (a + 1) len) := by
      simp [sel, List.getElem?_eq_getElem ha]
    rw [hcons, ih (a + 1) (by omega), List.drop_eq_getElem_cons ha]
    rfl

theorem dOf_range' (n k : ℕ) : dOf n (List.range' 0 k) = List.replicate k (n - k) := by
  apply List.ext_getElem?
  intro p
  rw [getElem?_dOf, List.getElem?_replicate, List.length_range']
  by_cases hp : p < k
  · rw [if_pos hp, if_pos hp]
    have hget : (List.range' 0 k).getD p 0 = p := by
      rw [List.getD_eq_getElem?_getD, List.getElem?_range' _ _ hp]
      simp
    rw [hget]
    congr 1
    omega
  · rw [if_neg hp, if_neg hp]

/-- One advance of the combination iterator from the state encoding `c`
follows the abstract successor `succComb`. -/
theorem comb_step (src : List α) (c : List ℕ)
    (hbnd : ∀ p, p < c.length → c.getD p 0 + (c.length - p) ≤ src.length)
    (hlow : ∀ p, p < c.length → p ≤ c.getD p 0) :
    Combinations.next (concComb src c) =
      match succComb src.length c with
      | none => (none, concComb src c)
      | some c' => (some (sel src c'), concComb src c') := by
  have hmem : ∀ x ∈ c, x < src.length := by
    intro x hx
    obtain ⟨p, hp, rfl⟩ := List.mem_iff_getElem.mp hx
    have := hbnd p hp
    rw [List.getD_eq_getElem?_getD, List.getElem?_eq_getElem hp] at this
    simp only [Option.getD_some] at this
    omega
  have hlen_sel : (sel src c).length = c.length := length_sel src c hmem
  rw [Combinations.next]
  dsimp only [concComb]
  rw [if_neg Bool.false_ne_true]
  cases hrp : rposition? (fun j => j != 0) (dOf src.length c) with
  | none =>
    rw [succComb, hrp]
  | some i =>
    rw [succComb, hrp]
    dsimp only
    have hik : i < c.length := by
      have := rposition?_lt hrp
      rwa [length_dOf] at this
    have hne : (dOf src.length c).getD i 0 ≠ 0 := by
      have := rposition?_getD 0 hrp
      simpa using this
    rw [getD_dOf hik] at hne ⊢
    have hbi := hbnd i hik
    have hk1 : 1 ≤ c.length := by omega
    have hkn : c.length ≤ src.length := by
      have := hbnd 0 (by omega)
      omega
    have hci : c.getD i 0 < src.length - c.length + i := by omega
    have hloi : i ≤ c.getD i 0 := hlow i hik
    -- the window start is the incremented source index
    have hwin : src.length - (src.length - c.length + i - c.getD i 0) + 1
        - (sel src c).length + i = c.getD i 0 + 1 := by
      rw [hlen_sel]
      omega
    have hcnt : (sel src c).length - i = c.length - i := by rw [hlen_sel]
    rw [hwin, hcnt]
    -- dest agreement
    have hdest : (sel src c).take i ++ (src.drop (c.getD i 0 + 1)).take (c.length - i)
        = sel src (c.take i ++ List.range' (c.getD i 0 + 1) (c.length - i)) := by
      rw [sel_append, sel_take src c i (by omega) hmem,
        sel_range' src (c.length - i) (c.getD i 0 + 1) (by omega)]
    -- indices agreement
    have htcl : (c.take i).length = i := by
      simp only [List.length_take]
      omega
    have htdl : ((dOf src.length c).take i).length = i := by
      simp only [List.length_take, length_dOf]
      omega
    have hlen' : (c.take i ++ List.range' (c.getD i 0 + 1) (c.length - i)).length
        = c.length := by
      simp only [List.length_append, List.length_take, List.length_range']
      omega
    have hc'getD : ∀ q, (c.take i ++ List.range' (c.getD i 0 + 1) (c.length - i)).getD q 0
        = if q < i then c.getD q 0
          else if q < c.length then c.getD i 0 + 1 + (q - i) else 0 := by
      intro q
      rw [List.getD_eq_getElem?_getD, List.getElem?_append, htcl]
      by_cases hqi : q < i
      · rw [if_pos hqi, if_pos hqi, List.getElem?_take, if_pos hqi,
          ← List.getD_eq_getElem?_getD]
      · rw [if_neg hqi, if_neg hqi]
        by_cases hq : q < c.length
        · rw [if_pos hq, List.getElem?_range' _ _ (show q - i < c.length - i from by omega)]
          simp
        · rw [if_neg hq]
          have hnone : (List.range' (c.getD i 0 + 1) (c.length - i))[q - i]? = none := by
            simp only [List.getElem?_eq_none_iff, List.length_range']
            omega
          rw [hnone]
          rfl
    have hidx : (dOf src.length c).take i
          ++ List.replicate ((dOf src.length c).length - i)
              (src.length - c.length + i - c.getD i 0 - 1)
        = dOf src.length (c.take i ++ List.range' (c.getD i 0 + 1) (c.length - i)) := by
      apply List.ext_getElem?
      intro p
      rw [getElem?_dOf, hlen']
      rw [List.getElem?_append, htdl, List.getElem?_take, List.getElem?_replicate,
        length_dOf]
      by_cases hpi : p < i
      · rw [if_pos hpi, if_pos hpi, getElem?_dOf,
          if_pos (show p < c.length from by omega),
          if_pos (show p < c.length from by omega), hc'getD p, if_pos hpi]
      · rw [if_neg hpi]
        by_cases hp : p < c.length
        · rw [if_pos (show p - i < c.length - i from by omega), if_pos hp,
            hc'getD p, if_neg hpi, if_pos hp]
          congr 1
          omega
        · rw [if_neg (show ¬ p - i < c.length - i from by omega), if_neg hp]
    rw [hdest, hidx]

end Combinatorust

namespace Combinatorust

/-! ## C3: the main combination enumeration theorem -/

theorem chain'_mem_combsFrom (n : ℕ) :
    ∀ d lo k c, n - lo ≤ d → c ∈ combsFrom n lo k → List.Chain' (· < ·) c := by
  intro d
  induction d with
  | zero =>
    intro lo k c h hc
    cases k with
    | zero =>
      rw [combsFrom_zero] at hc
      simp at hc
      subst hc
      simp
    | succ k =>
      rw [combsFrom_eq_nil (by omega) (by omega)] at hc
      simp at hc
  | succ d ih =>
    intro lo k c h hc
    cases k with
    | zero =>
      rw [combsFrom_zero] at hc
      simp at hc
      subst hc
      simp
    | succ k =>
      by_cases hlo : lo < n
      · rw [combsFrom_eq_cons (by omega) hlo] at hc
        rcases List.mem_append.mp hc with hc | hc
        · rcases List.mem_map.mp hc with ⟨c0, hc0, rfl⟩
          simp only [Nat.add_sub_cancel] at hc0
          have hch0 := ih (lo + 1) k c0 (by omega) hc0
          rw [List.chain'_cons']
          refine ⟨?_, hch0⟩
          intro y hy
          cases c0 with
          | nil => simp at hy
          | cons a t =>
            simp only [List.head?_cons, Option.mem_def, Option.some.injEq] at hy
            have hmem0 := mem_combsFrom n (n - (lo + 1)) (lo + 1) k (a :: t) le_rfl hc0
            have hlen0 := hmem0.1
            simp only [List.length_cons] at hlen0
            have := hmem0.2 0 (by omega)
            rw [List.getD_cons_zero] at this
            omega
        · exact ih (lo + 1) (k + 1) c (by omega) hc
      · rw [combsFrom_eq_nil (by omega) hlo] at hc
        simp at hc

/-- The exhausted state: every slot at its maximal index, all differences 0. -/
theorem succComb_last (n k : ℕ) (hk : k ≤ n) :
    succComb n (List.range' (n - k) k) = none := by
  rw [succComb]
  have hnone : rposition? (fun j => j != 0) (dOf n (List.range' (n - k) k)) = none := by
    apply rposition?_eq_none
    intro x hx
    rw [dOf] at hx
    rcases List.mem_map.mp hx with ⟨p, hp, rfl⟩
    rw [List.mem_range, List.length_range'] at hp
    have hget : (List.range' (n - k) k).getD p 0 = n - k + p := by
      rw [List.getD_eq_getElem?_getD, List.getElem?_range' _ _ hp]
      simp
    rw [List.length_range', hget]
    simp only [bne_eq_false_iff_eq]
    omega
  rw [hnone]

/-- The freshly constructed combination iterator state (`combinations` with
`k ≤ n` is `Except.ok` of exactly this). -/
def combInit (src : List α) (k : ℕ) : Combinations α :=
  { src := src, dest := src.take k,
    indices := List.replicate k (src.length - k), first := true }

/-- **C3.**  For every source of length `n` and `0 ≤ k ≤ n`, construction
succeeds and the enumerator yields exactly `C(n, k)` views before signalling
exhaustion: the views are the selections of the lexicographically ordered
list `combsFrom n 0 k` of all strictly increasing `k`-element index lists
over `[0, n)`; every view has length `k`; every index list is strictly
increasing with entries below `n`; and the index lists are pairwise distinct
(no subset is enumerated twice; views over a source with equal elements can
coincide as value lists). -/
theorem combinations_enumeration (src : List α) (k : ℕ) (hk : k ≤ src.length)
    (fuel : ℕ) (hfuel : (src.length).choose k < fuel) :
    combinations src k = .ok (combInit src k) ∧
    (run Combinations.next fuel (combInit src k)).1
        = (combsFrom src.length 0 k).map (sel src) ∧
    (run Combinations.next fuel (combInit src k)).1.length
        = (src.length).choose k ∧
    (∀ view ∈ (run Combinations.next fuel (combInit src k)).1,
      view.length = k) ∧
    (∀ c ∈ combsFrom src.length 0 k,
      c.length = k ∧ List.Chain' (· < ·) c ∧ ∀ x ∈ c, x < src.length) ∧
    (combsFrom src.length 0 k).Nodup := by
  set n := src.length with hn
  have hcons : combinations src k = .ok (combInit src k) := by
    rw [combinations, if_pos hk]
    rfl
  have hvalid : ∀ c ∈ combsFrom n 0 k,
      c.length = k ∧ List.Chain' (· < ·) c ∧ ∀ x ∈ c, x < n := by
    intro c hc
    obtain ⟨hlen, hbnd⟩ := mem_combsFrom n n 0 k c (by omega) hc
    refine ⟨hlen, chain'_mem_combsFrom n n 0 k c (by omega) hc, ?_⟩
    intro x hx
    obtain ⟨p, hp, rfl⟩ := List.mem_iff_getElem.mp hx
    have := (hbnd p (by omega)).2
    rw [List.getD_eq_getElem?_getD, List.getElem?_eq_getElem hp] at this
    simp only [Option.getD_some] at this
    omega
  have hbnds : ∀ c ∈ combsFrom n 0 k,
      (∀ p, p < c.length → c.getD p 0 + (c.length - p) ≤ src.length) ∧
      (∀ p, p < c.length → p ≤ c.getD p 0) := by
    intro c hc
    obtain ⟨hlen, hbnd⟩ := mem_combsFrom n n 0 k c (by omega) hc
    constructor
    · intro p hp
      have := (hbnd p (by omega)).2
      rw [← hn, hlen]
      exact this
    · intro p hp
      have := (hbnd p (by omega)).1
      omega
  have hroot := chain_combsFrom n n 0 k [] (by omega) (by simpa using hk)
  have hchain0 : List.Chain' (fun a b => succComb n a = some b) (combsFrom n 0 k) := by
    have := hroot.1
    simpa only [List.nil_append, List.map_id'] using this
  have hhead : (combsFrom n 0 k).head? = some (List.range' 0 k) := by
    have := (hroot.2 (by omega)).1
    simpa only [List.nil_append, List.map_id'] using this
  have hlastq : (combsFrom n 0 k).getLast? = some (List.range' (n - k) k) := by
    have := (hroot.2 (by omega)).2
    simpa only [List.nil_append, List.map_id'] using this
  have hne : combsFrom n 0 k ≠ [] := combsFrom_ne_nil (by omega)
  have hmain : run Combinations.next fuel (combInit src k)
      = ((combsFrom n 0 k).map (sel src), concComb src (List.range' (n - k) k)) := by
    have hR : ((combsFrom n 0 k).map fun c => (concComb src c, sel src c)) ≠ [] := by
      simpa using hne
    have hheadR : ((combsFrom n 0 k).map fun c => (concComb src c, sel src c)).head hR
        = (concComb src (List.range' 0 k), sel src (List.range' 0 k)) := by
      have h1 : ((combsFrom n 0 k).map fun c => (concComb src c, sel src c)).head? =
          some (concComb src (List.range' 0 k), sel src (List.range' 0 k)) := by
        rw [List.head?_map, hhead]
        rfl
      rw [List.head?_eq_head hR] at h1
      injection h1
    have h0 : Combinations.next (combInit src k)
        = (some ((((combsFrom n 0 k).map fun c => (concComb src c, sel src c)).head hR).2),
           (((combsFrom n 0 k).map fun c => (concComb src c, sel src c)).head hR).1) := by
      rw [hheadR]
      have hsel0 : sel src (List.range' 0 k) = src.take k := by
        rw [sel_range' src k 0 (by omega)]
        simp
      have hstate : Combinations.next (combInit src k)
          = (some (src.take k), { combInit src k with first := false }) := by
        rw [Combinations.next]
        rfl
      rw [hstate]
      have : ({ combInit src k with first := false } : Combinations α)
          = concComb src (List.range' 0 k) := by
        rw [concComb, combInit]
        rw [hsel0, dOf_range']
      rw [this, hsel0]
    have hchainR : List.Chain'
        (fun a b => Combinations.next a.1 = (some b.2, b.1))
        ((combsFrom n 0 k).map fun c => (concComb src c, sel src c)) := by
      rw [List.chain'_map]
      apply chain'_imp_mem (R := fun a b => succComb n a = some b)
      · intro a ha b hb hg
        obtain ⟨hb1, hb2⟩ := hbnds a ha
        have hstep := comb_step src a hb1 hb2
        rw [← hn, hg] at hstep
        rw [hstep]
      · exact hchain0
    have hlcmem : List.range' (n - k) k ∈ combsFrom n 0 k := mem_of_getLast?_eq hlastq
    have hlastR : Combinations.next
        ((((combsFrom n 0 k).map fun c => (concComb src c, sel src c)).getLast hR).1)
        = (none, concComb src (List.range' (n - k) k)) := by
      have h1 : (((combsFrom n 0 k).map fun c => (concComb src c, sel src c)).getLast hR)
          = (concComb src (List.range' (n - k) k), sel src (List.range' (n - k) k)) := by
        have h2 := List.getLast?_eq_getLast
          ((combsFrom n 0 k).map fun c => (concComb src c, sel src c)) hR
        rw [List.getLast?_map, hlastq] at h2
        injection h2 with h2
        exact h2.symm
      rw [h1]
      obtain ⟨hb1, hb2⟩ := hbnds _ hlcmem
      have hstep := comb_step src (List.range' (n - k) k) hb1 hb2
      rw [← hn, succComb_last n k hk] at hstep
      rw [hstep]
    have hspec := run_spec Combinations.next
      ((combsFrom n 0 k).map fun c => (concComb src c, sel src c))
      (combInit src k) (concComb src (List.range' (n - k) k)) hR h0 hchainR hlastR
      fuel (by rw [List.length_map, length_combsFrom n n 0 k (by omega), Nat.sub_zero]; omega)
    rw [hspec, List.map_map]
    rfl
  refine ⟨hcons, hmain ▸ rfl, ?_, ?_, hvalid, nodup_combsFrom n n 0 k (by omega)⟩
  · rw [hmain]
    simp only [List.length_map]
    rw [length_combsFrom n n 0 k (by omega), Nat.sub_zero]
  · rw [hmain]
    intro view hview
    simp only [List.mem_map] at hview
    obtain ⟨c, hc, rfl⟩ := hview
    obtain ⟨hlen, -, hmem⟩ := hvalid c hc
    rw [length_sel src c (by rw [← hn]; exact hmem)]
    exact hlen

/-- Witness for `combinations_enumeration`: `C(4, 2) = 6` combinations of
`[0, 1, 2, 3]`. -/
theorem combinations_enumeration_witness :
    combinations [0, 1, 2, 3] 2 = .ok (combInit [0, 1, 2, 3] 2) ∧
    (run Combinations.next 7 (combInit ([0, 1, 2, 3] : List ℕ) 2)).1.length
        = Nat.choose 4 2 := by
  have h := combinations_enumeration [0, 1, 2, 3] 2 (by norm_num) 7 (by decide)
  exact ⟨h.1, h.2.2.1⟩

end Combinatorust

namespace Combinatorust

/-! ## C6: the tree-shape enumerator — abstract order -/

/-- All label sequences of length `L` that are nondecreasing with `s p ≤ p`
and last entry `≤ cap`, in the enumerator's emission order (the sequences are
built by their last element, taken in decreasing order). -/
def catSeqs : ℕ → ℕ → List (List ℕ)
  | 0, _ => [[]]
  | L + 1, cap =>
    ((List.range (min L cap + 1)).reverse).flatMap fun v =>
      (catSeqs L v).map (· ++ [v])

/-- The successor computation of `Catalan::next` on the index array alone
(the same two-step `move_from` + suffix-overwrite as `Catalan.next`). -/
def succCat (s : List ℕ) : Option (List ℕ) :=
  match s.findIdx? (fun j => j != 0) with
  | none => none
  | some i =>
    let j := s.getD i 0
    let moved := List.range j ++ s.drop j
    some (moved.take j ++ List.replicate (i + 1 - j) (j - 1) ++ moved.drop (i + 1))

theorem catalan_next_false (s : List ℕ) :
    Catalan.next ⟨s, false⟩ =
      match succCat s with
      | none => (none, ⟨s, false⟩)
      | some s' => (some s', ⟨s', false⟩) := by
  rw [Catalan.next, succCat]
  cases hf : s.findIdx? (fun j => j != 0) <;> rfl

/-- The first sequence emitted below a given `cap`: `0, 1, 2, …` capped at
`cap`. -/
def hdCat (L cap : ℕ) : List ℕ :=
  List.range (min L (cap + 1)) ++ List.replicate (L - min L (cap + 1)) cap

theorem hdCat_self (L : ℕ) : hdCat L L = List.range L := by
  rw [hdCat, min_eq_left (by omega)]
  simp

theorem hdCat_succ (L cap : ℕ) :
    hdCat (L + 1) cap = hdCat L (min L cap) ++ [min L cap] := by
  rcases le_or_lt L cap with h | h
  · rw [min_eq_left h, hdCat, hdCat]
    rw [min_eq_left (by omega : L ≤ L + 1), min_eq_left (by omega : L + 1 ≤ cap + 1)]
    simp [List.range_succ]
  · rw [min_eq_right (by omega : cap ≤ L), hdCat, hdCat]
    rw [min_eq_right (by omega : cap + 1 ≤ L), min_eq_right (by omega : cap + 1 ≤ L + 1)]
    rw [show L + 1 - (cap + 1) = (L - (cap + 1)) + 1 from by omega, List.replicate_succ']
    simp

theorem findIdx?_replicate_zero (v : ℕ) (suf : List ℕ) (hv : v ≠ 0) :
    ∀ L, (List.replicate L 0 ++ v :: suf).findIdx? (fun j => j != 0) = some L := by
  intro L
  induction L with
  | zero => simp [List.findIdx?_cons, hv]
  | succ L ih =>
    rw [List.replicate_succ, List.cons_append, List.findIdx?_cons]
    simp only [bne_self_eq_false, Bool.false_eq_true, if_false]
    rw [List.findIdx?_succ, ih]
    rfl

/-- The enumerator's transition at the state `0 0 … 0 v suf` (with `v ≠ 0` at
position `L`): the first `v` cells become `0, 1, …, v-1` and cells `v ..= L`
become `v - 1`. -/
theorem succCat_step (L v : ℕ) (suf : List ℕ) (hv : v ≠ 0) (hvL : v ≤ L) :
    succCat (List.replicate L 0 ++ v :: suf)
      = some (List.range v ++ List.replicate (L + 1 - v) (v - 1) ++ suf) := by
  rw [succCat, findIdx?_replicate_zero v suf hv L]
  have hgd : (List.replicate L 0 ++ v :: suf).getD L 0 = v := by
    rw [List.getD_eq_getElem?_getD, List.getElem?_append,
      if_neg (by simp), List.length_replicate, Nat.sub_self]
    simp
  dsimp only
  rw [hgd]
  have htake : (List.range v ++ (List.replicate L 0 ++ v :: suf).drop v).take v
      = List.range v := List.take_left' (List.length_range v)
  have hdrop : (List.range v ++ (List.replicate L 0 ++ v :: suf).drop v).drop (L + 1)
      = suf := by
    rw [List.drop_append_eq_append_drop, List.drop_eq_nil_of_le (by simp; omega),
      List.length_range, List.drop_drop]
    rw [List.drop_append_eq_append_drop, List.drop_eq_nil_of_le (by simp; omega),
      List.length_replicate]
    have : v + (L + 1 - v) - L = 1 := by omega
    rw [this]
    rfl
  rw [htake, hdrop]

theorem catSeqs_ne_nil : ∀ L cap, catSeqs L cap ≠ [] := by
  intro L
  induction L with
  | zero => intro cap; simp [catSeqs]
  | succ L ih =>
    intro cap
    rw [catSeqs]
    rw [show (List.range (min L cap + 1)).reverse
        = min L cap :: (List.range (min L cap)).reverse from by
      rw [List.range_succ]
      simp]
    rw [List.flatMap_cons]
    intro hc
    rcases List.append_eq_nil.mp hc with ⟨h1, -⟩
    rcases List.map_eq_nil_iff.mp h1 with h2
    exact ih (min L cap) h2

theorem length_mem_catSeqs :
    ∀ L cap s, s ∈ catSeqs L cap → s.length = L := by
  intro L
  induction L with
  | zero =>
    intro cap s hs
    rw [catSeqs] at hs
    simp at hs
    simp [hs]
  | succ L ih =>
    intro cap s hs
    rw [catSeqs] at hs
    rw [List.mem_flatMap] at hs
    obtain ⟨v, -, hs⟩ := hs
    rcases List.mem_map.mp hs with ⟨t, ht, rfl⟩
    simp [ih v t ht]



/-- The concatenation of the blocks of `catSeqs (L+1)` (with a fixed tail
`suf` appended) for last values `v, v-1, …, 0`. -/
def catBlocks (L : ℕ) (suf : List ℕ) (v : ℕ) : List (List ℕ) :=
  ((List.range (v + 1)).reverse).flatMap fun w =>
    (catSeqs L w).map (· ++ (w :: suf))

theorem catSeqs_map_suffix (L cap : ℕ) (suf : List ℕ) :
    (catSeqs (L + 1) cap).map (· ++ suf) = catBlocks L suf (min L cap) := by
  rw [catSeqs, List.map_flatMap, catBlocks]
  congr 1
  funext w
  rw [List.map_map]
  congr 1
  funext t
  simp

/-- In emission order, consecutive entries of `catSeqs` (with any fixed tail
appended) are related by the enumerator's successor computation; the first
entry is `hdCat L cap ++ suf` and the last is all zeros followed by `suf`. -/
theorem chain_catSeqs :
    ∀ L cap (suf : List ℕ),
      List.Chain' (fun a b => succCat a = some b) ((catSeqs L cap).map (· ++ suf)) ∧
      ((catSeqs L cap).map (· ++ suf)).head? = some (hdCat L cap ++ suf) ∧
      ((catSeqs L cap).map (· ++ suf)).getLast? = some (List.replicate L 0 ++ suf) := by
  intro L
  induction L with
  | zero =>
    intro cap suf
    refine ⟨by simp [catSeqs], by simp [catSeqs, hdCat], by simp [catSeqs]⟩
  | succ L ihL =>
    intro cap suf
    rw [catSeqs_map_suffix]
    have key : ∀ v, v ≤ L →
        List.Chain' (fun a b => succCat a = some b) (catBlocks L suf v) ∧
        (catBlocks L suf v).head? = some (hdCat L v ++ [v] ++ suf) ∧
        (catBlocks L suf v).getLast? = some (List.replicate (L + 1) 0 ++ suf) := by
      intro v
      induction v with
      | zero =>
        intro _
        obtain ⟨hch, hhd, hlt⟩ := ihL 0 (0 :: suf)
        rw [catBlocks]
        rw [show (List.range 1).reverse = [0] from rfl]
        rw [List.flatMap_cons, List.flatMap_nil, List.append_nil]
        refine ⟨hch, ?_, ?_⟩
        · rw [hhd]
          simp
        · rw [hlt]
          simp [List.replicate_succ']
      | succ v ihv =>
        intro hvL
        obtain ⟨qch, qhd, qlt⟩ := ihv (by omega)
        obtain ⟨bch, bhd, blt⟩ := ihL (v + 1) ((v + 1) :: suf)
        rw [catBlocks]
        rw [show (List.range (v + 1 + 1)).reverse
            = (v + 1) :: (List.range (v + 1)).reverse from by
          rw [List.range_succ]; simp]
        rw [List.flatMap_cons]
        have hrest : (((List.range (v + 1)).reverse).flatMap fun w =>
            (catSeqs L w).map (· ++ (w :: suf))) = catBlocks L suf v := rfl
        rw [hrest]
        refine ⟨?_, ?_, ?_⟩
        · rw [List.chain'_append]
          refine ⟨bch, qch, ?_⟩
          intro x hx y hy
          rw [Option.mem_def, blt] at hx
          rw [Option.mem_def, qhd] at hy
          injection hx with hx
          injection hy with hy
          subst hx
          subst hy
          rw [succCat_step L (v + 1) suf (by omega) (by omega)]
          congr 1
          rw [show v + 1 - 1 = v from rfl]
          rw [hdCat, min_eq_right (by omega : v + 1 ≤ L)]
          rw [show L + 1 - (v + 1) = (L - (v + 1)) + 1 from by omega,
            List.replicate_succ']
          simp [List.append_assoc]
        · rw [List.head?_append_of_ne_nil _
            (fun h => catSeqs_ne_nil L (v + 1) (List.map_eq_nil_iff.mp h))]
          rw [bhd]
          simp
        · rw [List.getLast?_append, qlt]
          rfl
    obtain ⟨hch, hhd, hlt⟩ := key (min L cap) (by omega)
    refine ⟨hch, ?_, hlt⟩
    rw [hhd, hdCat_succ]

/-- No label sequence appears twice in `catSeqs`. -/
theorem nodup_catSeqs : ∀ L cap, (catSeqs L cap).Nodup := by
  intro L
  induction L with
  | zero => intro cap; simp [catSeqs]
  | succ L ih =>
    intro cap
    rw [catSeqs, List.flatMap_def, List.nodup_flatten]
    constructor
    · intro l hl
      rcases List.mem_map.mp hl with ⟨v, -, rfl⟩
      exact List.Nodup.map (List.append_left_injective [v]) (ih v)
    · rw [List.pairwise_map]
      refine List.Pairwise.imp ?_
        ((List.nodup_reverse.mpr (List.nodup_range _)) :
          List.Pairwise (· ≠ ·) ((List.range (min L cap + 1)).reverse))
      intro v w hvw s hs hs'
      rcases List.mem_map.mp hs with ⟨t, -, rfl⟩
      rcases List.mem_map.mp hs' with ⟨t', -, heq⟩
      have h1 : (t' ++ [w]).getLast? = some w := List.getLast?_concat _
      rw [heq, List.getLast?_concat] at h1
      injection h1 with h1
      exact hvw h1



/-- The size of `catSeqs L cap` (the ballot-number recurrence). -/
def catCount : ℕ → ℕ → ℕ
  | 0, _ => 1
  | L + 1, cap => (Finset.range (min L cap + 1)).sum fun v => catCount L v

theorem catCount_zero (cap : ℕ) : catCount 0 cap = 1 := rfl

theorem catCount_succ (L cap : ℕ) :
    catCount (L + 1) cap = (Finset.range (min L cap + 1)).sum fun v => catCount L v := rfl

theorem list_sum_range_map (f : ℕ → ℕ) :
    ∀ n, ((List.range n).map f).sum = (Finset.range n).sum f := by
  intro n
  induction n with
  | zero => rfl
  | succ n ih =>
    rw [List.range_succ, List.map_append, List.sum_append, Finset.sum_range_succ, ih]
    simp

theorem length_catSeqs : ∀ L cap, (catSeqs L cap).length = catCount L cap := by
  intro L
  induction L with
  | zero => intro cap; rfl
  | succ L ih =>
    intro cap
    rw [catSeqs, catCount_succ, List.length_flatMap]
    have h1 : List.map (List.length ∘ fun v => (catSeqs L v).map (· ++ [v]))
        ((List.range (min L cap + 1)).reverse)
        = ((List.range (min L cap + 1)).reverse).map fun v => catCount L v := by
      apply List.map_congr_left
      intro v _
      simp only [Function.comp_apply, List.length_map]
      exact ih v
    rw [h1, List.map_reverse, List.sum_reverse, list_sum_range_map]

theorem sum_triangle (g : ℕ → ℕ → ℕ) :
    ∀ n, ((Finset.range (n + 1)).sum fun v => (Finset.range (v + 1)).sum fun p => g p (v - p))
      = (Finset.range (n + 1)).sum fun p => (Finset.range (n + 1 - p)).sum fun w => g p w := by
  intro n
  induction n with
  | zero => simp
  | succ n ih =>
    rw [Finset.sum_range_succ
      (fun v => (Finset.range (v + 1)).sum fun p => g p (v - p)) (n + 1), ih]
    rw [Finset.sum_range_succ
      (fun p => (Finset.range (n + 1 + 1 - p)).sum fun w => g p w) (n + 1)]
    have h1 : ((Finset.range (n + 1)).sum fun p =>
          (Finset.range (n + 1 + 1 - p)).sum fun w => g p w)
        = (Finset.range (n + 1)).sum fun p =>
            (((Finset.range (n + 1 - p)).sum fun w => g p w) + g p (n + 1 - p)) := by
      apply Finset.sum_congr rfl
      intro p hp
      rw [Finset.mem_range] at hp
      rw [show n + 1 + 1 - p = (n + 1 - p) + 1 from by omega, Finset.sum_range_succ]
    rw [h1, Finset.sum_add_distrib]
    rw [show n + 1 + 1 - (n + 1) = 1 from by omega, Finset.sum_range_one]
    rw [Finset.sum_range_succ (fun p => g p (n + 1 - p)) (n + 1)]
    rw [show n + 1 - (n + 1) = 0 from by omega]
    omega

theorem catCount_key : ∀ M : ℕ,
    (∀ cap, catCount (M + 1) cap
        = (Finset.range (min M cap + 1)).sum fun p => catalan p * catCount (M - p) (cap - p))
    ∧ catCount (M + 1) (M + 1) = catalan (M + 1) := by
  intro M
  induction M using Nat.strong_induction_on with
  | _ M ih =>
    have hB : ∀ m, m ≤ M → catCount m m = catalan m := by
      intro m hm
      match m with
      | 0 => rw [catCount_zero, catalan_zero]
      | m' + 1 => exact (ih m' (by omega)).2
    have hA : ∀ cap, catCount (M + 1) cap
        = (Finset.range (min M cap + 1)).sum
            fun p => catalan p * catCount (M - p) (cap - p) := by
      cases M with
      | zero =>
        intro cap
        rw [catCount_succ]
        simp [catCount_zero, catalan_zero]
      | succ N =>
        intro cap
        have ihA := (ih N (by omega)).1
        rcases le_or_lt cap N with hcap | hcap
        · rw [min_eq_right (by omega : cap ≤ N + 1)]
          rw [catCount_succ, min_eq_right (by omega : cap ≤ N + 1)]
          have h1 : ∀ v ∈ Finset.range (cap + 1),
              catCount (N + 1) v = (Finset.range (v + 1)).sum
                fun p => catalan p * catCount (N - p) (v - p) := by
            intro v hv
            rw [Finset.mem_range] at hv
            rw [ihA v, min_eq_right (by omega : v ≤ N)]
          rw [Finset.sum_congr rfl h1,
            sum_triangle (fun p w => catalan p * catCount (N - p) w) cap]
          apply Finset.sum_congr rfl
          intro p hp
          rw [Finset.mem_range] at hp
          rw [show N + 1 - p = (N - p) + 1 from by omega, catCount_succ]
          rw [min_eq_right (by omega : cap - p ≤ N - p), Finset.mul_sum]
          rw [show cap + 1 - p = (cap - p) + 1 from by omega]
        · rw [min_eq_left (by omega : N + 1 ≤ cap)]
          rw [catCount_succ, min_eq_left (by omega : N + 1 ≤ cap)]
          rw [Finset.sum_range_succ (fun v => catCount (N + 1) v) (N + 1)]
          rw [(ih N (by omega)).2]
          have h1 : ∀ v ∈ Finset.range (N + 1),
              catCount (N + 1) v = (Finset.range (v + 1)).sum
                fun p => catalan p * catCount (N - p) (v - p) := by
            intro v hv
            rw [Finset.mem_range] at hv
            rw [ihA v, min_eq_right (by omega : v ≤ N)]
          rw [Finset.sum_congr rfl h1,
            sum_triangle (fun p w => catalan p * catCount (N - p) w) N]
          rw [Finset.sum_range_succ
            (fun p => catalan p * catCount (N + 1 - p) (cap - p)) (N + 1)]
          rw [show N + 1 - (N + 1) = 0 from by omega, catCount_zero, mul_one]
          congr 1
          apply Finset.sum_congr rfl
          intro p hp
          rw [Finset.mem_range] at hp
          rw [show N + 1 - p = (N - p) + 1 from by omega, catCount_succ]
          rw [min_eq_left (by omega : N - p ≤ cap - p), Finset.mul_sum]
    refine ⟨hA, ?_⟩
    have hconst : catCount (M + 1) (M + 1) = catCount (M + 1) M := by
      rw [catCount_succ, catCount_succ, min_eq_left (by omega : M ≤ M + 1), min_self]
    have h3 : ((Finset.range (M + 1)).sum fun p => catalan p * catCount (M - p) (M - p))
        = (Finset.range (M + 1)).sum fun p => catalan p * catalan (M - p) := by
      apply Finset.sum_congr rfl
      intro p hp
      rw [Finset.mem_range] at hp
      rw [hB (M - p) (by omega)]
    rw [hconst, hA M, min_self, h3, catalan_succ M, Finset.sum_range]

theorem catCount_self : ∀ L, catCount L L = catalan L
  | 0 => by rw [catCount_zero, catalan_zero]
  | L + 1 => (catCount_key L).2

theorem succCat_replicate_zero (L : ℕ) : succCat (List.replicate L 0) = none := by
  have h : (List.replicate L 0).findIdx? (fun j => j != 0) = none :=
    List.findIdx?_eq_none_iff.mpr (by
      intro x hx
      rw [List.eq_of_mem_replicate hx]
      rfl)
  rw [succCat, h]

/-- C6: for every `n ≥ 1`, the tree-shape enumerator over `n + 1` leaves
(`Catalan::new(n + 1)` driven by `Catalan::next`) yields, before signaling
exhaustion, exactly the sequence `catSeqs n n` of label arrays: there are
exactly `catalan n = C(2n, n) / (n + 1)` of them, each of length `n`, and
they are pairwise distinct. -/
theorem catalan_enumeration (n fuel : ℕ) (hn : 1 ≤ n) (hfuel : catalan n < fuel) :
    (run Catalan.next fuel (Catalan.new (n + 1))).1 = catSeqs n n ∧
    (run Catalan.next fuel (Catalan.new (n + 1))).1.length = catalan n ∧
    catalan n = (2 * n).choose n / (n + 1) ∧
    (∀ view ∈ (run Catalan.next fuel (Catalan.new (n + 1))).1, view.length = n) ∧
    (run Catalan.next fuel (Catalan.new (n + 1))).1.Nodup := by
  obtain ⟨hch, hhd, hlt⟩ := chain_catSeqs n n []
  have hstrip : (catSeqs n n).map (· ++ ([] : List ℕ)) = catSeqs n n := by
    simp
  rw [hstrip] at hch hhd hlt
  rw [List.append_nil, hdCat_self] at hhd
  rw [List.append_nil] at hlt
  have hne : catSeqs n n ≠ [] := catSeqs_ne_nil n n
  have hR : ((catSeqs n n).map fun s => ((⟨s, false⟩ : Catalan), s)) ≠ [] := by
    simpa using hne
  have hmain : run Catalan.next fuel (Catalan.new (n + 1))
      = (catSeqs n n, (⟨List.replicate n 0, false⟩ : Catalan)) := by
    have hheadR : ((catSeqs n n).map fun s => ((⟨s, false⟩ : Catalan), s)).head hR
        = ((⟨List.range n, false⟩ : Catalan), List.range n) := by
      have h1 : ((catSeqs n n).map fun s => ((⟨s, false⟩ : Catalan), s)).head? =
          some ((⟨List.range n, false⟩ : Catalan), List.range n) := by
        rw [List.head?_map, hhd]
        rfl
      rw [List.head?_eq_head hR] at h1
      injection h1
    have h0 : Catalan.next (Catalan.new (n + 1))
        = (some ((((catSeqs n n).map fun s => ((⟨s, false⟩ : Catalan), s)).head hR).2),
           (((catSeqs n n).map fun s => ((⟨s, false⟩ : Catalan), s)).head hR).1) := by
      rw [hheadR]
      rfl
    have hchainR : List.Chain'
        (fun a b => Catalan.next a.1 = (some b.2, b.1))
        ((catSeqs n n).map fun s => ((⟨s, false⟩ : Catalan), s)) := by
      rw [List.chain'_map]
      apply List.Chain'.imp ?_ hch
      intro a b hg
      show Catalan.next ⟨a, false⟩ = (some b, ⟨b, false⟩)
      rw [catalan_next_false a, hg]
    have hlastR : Catalan.next
        ((((catSeqs n n).map fun s => ((⟨s, false⟩ : Catalan), s)).getLast hR).1)
        = (none, (⟨List.replicate n 0, false⟩ : Catalan)) := by
      have h1 : (((catSeqs n n).map fun s => ((⟨s, false⟩ : Catalan), s)).getLast hR)
          = ((⟨List.replicate n 0, false⟩ : Catalan), List.replicate n 0) := by
        have h2 := List.getLast?_eq_getLast
          ((catSeqs n n).map fun s => ((⟨s, false⟩ : Catalan), s)) hR
        rw [List.getLast?_map, hlt] at h2
        injection h2 with h2
        exact h2.symm
      rw [h1]
      show Catalan.next ⟨List.replicate n 0, false⟩ = _
      rw [catalan_next_false, succCat_replicate_zero n]
    have hspec := run_spec Catalan.next
      ((catSeqs n n).map fun s => ((⟨s, false⟩ : Catalan), s))
      (Catalan.new (n + 1)) (⟨List.replicate n 0, false⟩ : Catalan) hR h0 hchainR hlastR
      fuel (by rw [List.length_map, length_catSeqs, catCount_self]; omega)
    rw [hspec, List.map_map]
    rw [show (Prod.snd ∘ fun s => ((⟨s, false⟩ : Catalan), s)) = id from rfl, List.map_id]
  refine ⟨hmain ▸ rfl, ?_, ?_, ?_, ?_⟩
  · rw [hmain, length_catSeqs, catCount_self]
  · rw [catalan_eq_centralBinom_div]
    rfl
  · rw [hmain]
    intro view hview
    exact length_mem_catSeqs n n view hview
  · rw [hmain]
    exact nodup_catSeqs n n

/-- Witness for `catalan_enumeration`: the enumerator over `3` leaves yields
`catalan 2 = 2` label sequences. -/
theorem catalan_enumeration_witness :
    (run Catalan.next 3 (Catalan.new 3)).1.length = catalan 2 ∧
      catalan 2 = Nat.choose 4 2 / 3 := by
  have h := catalan_enumeration 2 3 (by decide) (by rw [catalan_two]; omega)
  refine ⟨h.2.1, ?_⟩
  have h2 := h.2.2.1
  norm_num at h2 ⊢
  exact h2



/-! ## C5: the permutation enumerator -/

/-- The successive states (and final state) obtained by applying a list of
swap instructions in order. -/
def applySwaps : List α → List (ℕ × ℕ) → List (List α) × List α
  | l, [] => ([], l)
  | l, (a, b) :: rest =>
    let d := swapL l a b
    let r := applySwaps d rest
    (d :: r.1, r.2)

theorem applySwaps_cons (l : List α) (a b : ℕ) (rest : List (ℕ × ℕ)) :
    applySwaps l ((a, b) :: rest)
      = ((swapL l a b) :: (applySwaps (swapL l a b) rest).1,
         (applySwaps (swapL l a b) rest).2) := rfl

theorem length_applySwaps :
    ∀ (sw : List (ℕ × ℕ)) (l : List α), (applySwaps l sw).1.length = sw.length := by
  intro sw
  induction sw with
  | nil => intro l; rfl
  | cons s rest ih =>
    intro l
    obtain ⟨a, b⟩ := s
    rw [applySwaps_cons]
    simp [ih]

theorem applySwaps_append :
    ∀ (s1 : List (ℕ × ℕ)) (l : List α) (s2 : List (ℕ × ℕ)),
      applySwaps l (s1 ++ s2)
        = ((applySwaps l s1).1 ++ (applySwaps (applySwaps l s1).2 s2).1,
           (applySwaps (applySwaps l s1).2 s2).2) := by
  intro s1
  induction s1 with
  | nil => intro l s2; rfl
  | cons s rest ih =>
    intro l s2
    obtain ⟨a, b⟩ := s
    simp [List.cons_append, applySwaps_cons, ih]

theorem swapL_length (l : List α) (a b : ℕ) : (swapL l a b).length = l.length := by
  rw [swapL]
  split
  · simp
  · rfl

theorem swapL_cons (h : α) (l : List α) (a b : ℕ) (ha : a < l.length) (hb : b < l.length) :
    swapL (h :: l) (a + 1) (b + 1) = h :: swapL l a b := by
  rw [swapL, swapL, dif_pos ⟨Nat.succ_lt_succ ha, Nat.succ_lt_succ hb⟩,
    dif_pos ⟨ha, hb⟩]
  rfl

theorem swapL_adj : ∀ (a : List α) (y z : α) (c : List α),
    swapL (a ++ y :: z :: c) a.length (a.length + 1) = a ++ z :: y :: c
  | [], y, z, c => by
    rw [swapL, dif_pos ⟨by simp, by simp⟩]
    rfl
  | h :: a, y, z, c => by
    have ih := swapL_adj a y z c
    show swapL (h :: (a ++ y :: z :: c)) (a.length + 1) (a.length + 1 + 1) = _
    rw [swapL_cons h _ _ _
      (by simp only [List.length_append, List.length_cons]; omega)
      (by simp only [List.length_append, List.length_cons]; omega)]
    rw [ih]
    rfl

/-- Insert `x` at position `p` of `u`. -/
def insAt (p : ℕ) (x : α) (u : List α) : List α := u.take p ++ x :: u.drop p

theorem insAt_zero (x : α) (u : List α) : insAt 0 x u = x :: u := rfl

theorem insAt_length_self (x : α) (u : List α) : insAt u.length x u = u ++ [x] := by
  rw [insAt, List.take_length, List.drop_length]

theorem length_insAt (p : ℕ) (x : α) (u : List α) (hp : p ≤ u.length) :
    (insAt p x u).length = u.length + 1 := by
  rw [insAt]
  simp only [List.length_append, List.length_take, List.length_cons, List.length_drop]
  omega

theorem getElem?_insAt_self (p : ℕ) (x : α) (u : List α) (hp : p ≤ u.length) :
    (insAt p x u)[p]? = some x := by
  rw [insAt, List.getElem?_append, List.length_take]
  rw [if_neg (by omega)]
  rw [show p - min p u.length = 0 from by omega]
  simp

theorem getElem?_insAt_lt (p i : ℕ) (x : α) (u : List α) (hip : i < p) (hp : p ≤ u.length) :
    (insAt p x u)[i]? = u[i]? := by
  rw [insAt, List.getElem?_append, List.length_take, if_pos (by omega)]
  rw [List.getElem?_take, if_pos hip]

theorem take_insAt (p : ℕ) (x : α) (u : List α) (hp : p ≤ u.length) :
    (insAt p x u).take p = u.take p := by
  rw [insAt]
  exact List.take_left' (by rw [List.length_take]; omega)

theorem drop_insAt (p : ℕ) (x : α) (u : List α) (hp : p ≤ u.length) :
    (insAt p x u).drop (p + 1) = u.drop p := by
  rw [insAt, ← List.drop_drop, List.drop_left' (by rw [List.length_take]; omega)]
  rfl

theorem swapL_insAt_down (p : ℕ) (x : α) (u : List α) (hp : p < u.length) :
    swapL (insAt (p + 1) x u) p (p + 1) = insAt p x u := by
  have h1 : insAt (p + 1) x u = u.take p ++ u.get ⟨p, hp⟩ :: x :: u.drop (p + 1) := by
    rw [insAt, List.take_succ, List.getElem?_eq_getElem hp]
    simp only [Option.toList_some, List.append_assoc, List.singleton_append,
      List.get_eq_getElem]
  have h2 : insAt p x u = u.take p ++ x :: u.get ⟨p, hp⟩ :: u.drop (p + 1) := by
    rw [insAt, List.drop_eq_getElem_cons hp]
    simp
  rw [h1, h2]
  have h3 := swapL_adj (u.take p) (u.get ⟨p, hp⟩) x (u.drop (p + 1))
  rwa [show (u.take p).length = p from by rw [List.length_take]; omega] at h3

theorem swapL_insAt_up (p : ℕ) (x : α) (u : List α) (hp : p < u.length) :
    swapL (insAt p x u) p (p + 1) = insAt (p + 1) x u := by
  have h1 : insAt (p + 1) x u = u.take p ++ u.get ⟨p, hp⟩ :: x :: u.drop (p + 1) := by
    rw [insAt, List.take_succ, List.getElem?_eq_getElem hp]
    simp only [Option.toList_some, List.append_assoc, List.singleton_append,
      List.get_eq_getElem]
  have h2 : insAt p x u = u.take p ++ x :: u.get ⟨p, hp⟩ :: u.drop (p + 1) := by
    rw [insAt, List.drop_eq_getElem_cons hp]
    simp
  rw [h1, h2]
  have h3 := swapL_adj (u.take p) x (u.get ⟨p, hp⟩) (u.drop (p + 1))
  rwa [show (u.take p).length = p from by rw [List.length_take]; omega] at h3

theorem swapL_append (u v : List α) (a b : ℕ) (ha : a < u.length) (hb : b < u.length) :
    swapL (u ++ v) a b = swapL u a b ++ v := by
  rw [swapL, swapL,
    dif_pos ⟨by simp only [List.length_append]; omega,
             by simp only [List.length_append]; omega⟩,
    dif_pos ⟨ha, hb⟩]
  simp only [List.get_eq_getElem]
  rw [List.getElem_append_left hb, List.getElem_append_left ha,
    List.set_append_left _ _ ha]
  rw [List.set_append_left]
  rw [List.length_set]
  exact hb

/-- A swap instruction that is adjacent and in bounds for vectors of
length `n`. -/
def adjB (n : ℕ) (s : ℕ × ℕ) : Prop := s.2 = s.1 + 1 ∧ s.2 < n

theorem sweep_adjB (n : ℕ) (d : Bool) : ∀ s ∈ sweep n d, adjB (n + 1) s := by
  intro s hs
  rw [sweep] at hs
  rcases d with - | -
  · simp only [Bool.false_eq_true, if_false, List.mem_map, List.mem_reverse,
      List.mem_range] at hs
    obtain ⟨p, hp, rfl⟩ := hs
    exact ⟨rfl, show p + 1 < n + 1 from by omega⟩
  · simp only [if_true, List.mem_map, List.mem_range] at hs
    obtain ⟨p, hp, rfl⟩ := hs
    exact ⟨rfl, show p + 1 < n + 1 from by omega⟩

theorem weave_adjB (n : ℕ) :
    ∀ (sw : List (ℕ × ℕ)) (atB : Bool), (∀ s ∈ sw, adjB n s) →
      ∀ s ∈ weave n atB sw, adjB (n + 1) s := by
  intro sw
  induction sw with
  | nil => intro atB _ s hs; simp [weave] at hs
  | cons t rest ih =>
    intro atB hb s hs
    obtain ⟨a, b⟩ := t
    have hab : adjB n (a, b) := hb (a, b) (by simp)
    have h1 : b = a + 1 := hab.1
    have h2 : b < n := hab.2
    rw [weave] at hs
    rcases List.mem_cons.mp hs with rfl | hs
    · rcases atB with - | -
      · simp only [Bool.false_eq_true, if_false]
        exact ⟨show b = a + 1 from h1, show b < n + 1 from by omega⟩
      · simp only [if_true]
        exact ⟨show b + 1 = a + 1 + 1 from by omega, show b + 1 < n + 1 from by omega⟩
    · rcases List.mem_append.mp hs with hs | hs
      · exact sweep_adjB n atB s hs
      · exact ih (!atB) (fun t ht => hb t (List.mem_cons_of_mem _ ht)) s hs

theorem sjt_adjB : ∀ n, ∀ s ∈ sjtSwaps n, adjB n s := by
  intro n
  induction n with
  | zero => intro s hs; simp [sjtSwaps] at hs
  | succ n ih =>
    intro s hs
    rw [sjtSwaps] at hs
    rcases List.mem_append.mp hs with hs | hs
    · exact sweep_adjB n false s hs
    · exact weave_adjB n (sjtSwaps n) true ih s hs

theorem length_sweep (n : ℕ) (d : Bool) : (sweep n d).length = n := by
  rw [sweep]
  rcases d with - | - <;> simp

theorem length_weave (n : ℕ) :
    ∀ (sw : List (ℕ × ℕ)) (atB : Bool),
      (weave n atB sw).length = sw.length * (n + 1) := by
  intro sw
  induction sw with
  | nil => intro atB; cases atB <;> simp [weave]
  | cons t rest ih =>
    intro atB
    obtain ⟨a, b⟩ := t
    rw [weave]
    simp only [List.length_cons, List.length_append, length_sweep, ih (!atB),
      List.length_cons]
    rw [Nat.succ_mul]
    omega

theorem length_sjtSwaps : ∀ n, (sjtSwaps n).length + 1 = n.factorial := by
  intro n
  induction n with
  | zero => rfl
  | succ n ih =>
    rw [sjtSwaps, List.length_append, length_sweep, length_weave,
      Nat.factorial_succ, ← ih]
    ring

theorem perm_next_swap (d : List α) (a b : ℕ) (rest : List (ℕ × ℕ)) :
    Permutations.next ⟨d, ⟨(a, b + 1) :: rest⟩⟩
      = (some (swapL d a (b + 1)), ⟨swapL d a (b + 1), ⟨rest⟩⟩) := by
  cases a <;> rfl

theorem perm_run_aux :
    ∀ (sw : List (ℕ × ℕ)) (d : List α), (∀ s ∈ sw, adjB d.length s) →
      ∀ (fuel : ℕ), sw.length < fuel →
        run Permutations.next fuel ⟨d, ⟨sw⟩⟩
          = ((applySwaps d sw).1, ⟨(applySwaps d sw).2, ⟨[]⟩⟩) := by
  intro sw
  induction sw with
  | nil =>
    intro d _ fuel hf
    match fuel, hf with
    | fuel + 1, _ => rfl
  | cons s rest ih =>
    intro d hb fuel hf
    obtain ⟨a, b⟩ := s
    obtain ⟨h1, h2⟩ := hb (a, b) (by simp)
    simp only at h1
    subst h1
    match fuel, hf with
    | fuel + 1, hf =>
      simp only [run, perm_next_swap]
      have ihr := ih (swapL d a (a + 1))
        (by
          rw [swapL_length]
          intro t ht
          exact hb t (List.mem_cons_of_mem _ ht))
        fuel (by simpa using hf)
      simp only [ihr, applySwaps_cons]

/-- The full run of the permutation enumerator: the source itself first,
then the states produced by the `sjtSwaps` instruction stream. -/
theorem perm_run (src : List α) (fuel : ℕ)
    (hfuel : (src.length).factorial < fuel) :
    run Permutations.next fuel (permutations_iter src)
      = (src :: (applySwaps src (sjtSwaps src.length)).1,
         ⟨(applySwaps src (sjtSwaps src.length)).2, ⟨[]⟩⟩) := by
  match fuel, hfuel with
  | fuel + 1, hfuel =>
    have h0 : Permutations.next (permutations_iter src)
        = (some src, ⟨src, ⟨sjtSwaps src.length⟩⟩) := rfl
    simp only [run, h0]
    have h1 := perm_run_aux (sjtSwaps src.length) src (sjt_adjB src.length) fuel
      (by have := length_sjtSwaps src.length; omega)
    simp only [h1]



theorem trace_sweep_down_aux (x : α) (u : List α) :
    ∀ q, q ≤ u.length →
      applySwaps (insAt q x u) (((List.range q).reverse).map fun p => (p, p + 1))
        = (((List.range q).reverse).map fun p => insAt p x u, insAt 0 x u) := by
  intro q
  induction q with
  | zero => intro _; rfl
  | succ q ih =>
    intro hq
    rw [show (List.range (q + 1)).reverse = q :: (List.range q).reverse from by
      rw [List.range_succ]; simp]
    rw [List.map_cons, applySwaps_cons, swapL_insAt_down q x u (by omega),
      ih (by omega), List.map_cons]

theorem trace_sweep_down (x : α) (u : List α) :
    applySwaps (u ++ [x]) (sweep u.length false)
      = (((List.range u.length).reverse).map fun p => insAt p x u, insAt 0 x u) := by
  have h := trace_sweep_down_aux x u u.length (le_refl _)
  rw [insAt_length_self] at h
  rw [sweep]
  simp only [Bool.false_eq_true, if_false]
  exact h

theorem trace_sweep_up_aux (x : α) (u : List α) :
    ∀ q s, s + q = u.length →
      applySwaps (insAt s x u) ((List.range' s q).map fun p => (p, p + 1))
        = ((List.range' (s + 1) q).map fun p => insAt p x u, insAt u.length x u) := by
  intro q
  induction q with
  | zero =>
    intro s hs
    rw [show s = u.length from by omega]
    rfl
  | succ q ih =>
    intro s hs
    rw [List.range'_succ, List.map_cons, applySwaps_cons,
      swapL_insAt_up s x u (by omega), ih (s + 1) (by omega),
      List.range'_succ, List.map_cons]

theorem trace_sweep_up (x : α) (u : List α) :
    applySwaps (insAt 0 x u) (sweep u.length true)
      = ((List.range' 1 u.length).map fun p => insAt p x u, u ++ [x]) := by
  have h := trace_sweep_up_aux x u u.length 0 (by omega)
  rw [insAt_length_self] at h
  rw [sweep, if_pos rfl, List.range_eq_range']
  exact h

/-- The descending insertion block: `x` inserted at positions
`|w|, |w|-1, …, 0` of `w`. -/
def insDesc (x : α) (w : List α) : List (List α) :=
  ((List.range (w.length + 1)).reverse).map fun p => insAt p x w

/-- The ascending insertion block: `x` inserted at positions `0, 1, …, |w|`
of `w`. -/
def insAsc (x : α) (w : List α) : List (List α) :=
  (List.range (w.length + 1)).map fun p => insAt p x w

theorem insDesc_eq_cons (x : α) (w : List α) :
    insDesc x w
      = insAt w.length x w :: ((List.range w.length).reverse).map fun p => insAt p x w := by
  rw [insDesc, show (List.range (w.length + 1)).reverse
      = w.length :: (List.range w.length).reverse from by
    rw [List.range_succ]; simp]
  rw [List.map_cons]

theorem insAsc_eq_cons (x : α) (w : List α) :
    insAsc x w
      = insAt 0 x w :: (List.range' 1 w.length).map fun p => insAt p x w := by
  rw [insAsc, List.range_eq_range', List.range'_succ, List.map_cons]

/-- Alternating insertion blocks of `x` around each successive state of the
inner permutation trace. -/
def permBlocks (x : α) : Bool → List (List α) → List (List α)
  | _, [] => []
  | down, w :: ws => (cond down (insDesc x w) (insAsc x w)) ++ permBlocks x (!down) ws

/-- Parity of a count of direction flips. -/
def flipN : ℕ → Bool → Bool
  | 0, b => b
  | k + 1, b => flipN k (!b)

theorem trace_weave (x : α) :
    ∀ (sw : List (ℕ × ℕ)) (u : List α) (atB : Bool),
      (∀ s ∈ sw, adjB u.length s) →
      applySwaps (insAt (cond atB 0 u.length) x u) (weave u.length atB sw)
        = (permBlocks x (!atB) (applySwaps u sw).1,
           insAt (cond (flipN sw.length atB) 0 u.length) x (applySwaps u sw).2) := by
  intro sw
  induction sw with
  | nil =>
    intro u atB _
    cases atB <;> rfl
  | cons t rest ih =>
    intro u atB hb
    obtain ⟨a, b⟩ := t
    have hab : adjB u.length (a, b) := hb (a, b) (by simp)
    have hb1 : b = a + 1 := hab.1
    have hb2 : b < u.length := hab.2
    subst hb1
    have hrest : ∀ s ∈ rest, adjB u.length s :=
      fun s hs => hb s (List.mem_cons_of_mem _ hs)
    have hsw : (swapL u a (a + 1)).length = u.length := swapL_length u a (a + 1)
    cases atB with
    | true =>
      rw [show (cond true 0 u.length : ℕ) = 0 from rfl]
      rw [weave, if_pos rfl, applySwaps_cons]
      rw [show insAt 0 x u = x :: u from rfl]
      rw [swapL_cons x u a (a + 1) (by omega) hb2]
      rw [applySwaps_append]
      rw [show x :: swapL u a (a + 1) = insAt 0 x (swapL u a (a + 1)) from rfl]
      rw [show sweep u.length true = sweep (swapL u a (a + 1)).length true from by
        rw [hsw]]
      rw [trace_sweep_up x (swapL u a (a + 1))]
      dsimp only
      rw [show swapL u a (a + 1) ++ [x]
          = insAt (cond false 0 (swapL u a (a + 1)).length) x (swapL u a (a + 1)) from
        (insAt_length_self x _).symm]
      rw [show weave u.length (!true) rest
          = weave (swapL u a (a + 1)).length false rest from by
        rw [show (!true) = false from rfl, hsw]]
      rw [ih (swapL u a (a + 1)) false (by rw [hsw]; exact hrest)]
      dsimp only
      rw [applySwaps_cons]
      dsimp only
      rw [permBlocks]
      rw [show (cond (!true) (insDesc x (swapL u a (a + 1)))
          (insAsc x (swapL u a (a + 1)))) = insAsc x (swapL u a (a + 1)) from rfl]
      rw [insAsc_eq_cons]
      rw [show (swapL u a (a + 1)).length = u.length from hsw, List.cons_append]
      simp only [List.length_cons, flipN, Bool.not_true, Bool.not_false]
    | false =>
      rw [show (cond false 0 u.length : ℕ) = u.length from rfl]
      rw [weave, if_neg (by simp), applySwaps_cons]
      rw [insAt_length_self]
      rw [swapL_append u [x] a (a + 1) (by omega) hb2]
      rw [applySwaps_append]
      rw [show sweep u.length false = sweep (swapL u a (a + 1)).length false from by
        rw [hsw]]
      rw [trace_sweep_down x (swapL u a (a + 1))]
      dsimp only
      rw [show insAt 0 x (swapL u a (a + 1))
          = insAt (cond true 0 (swapL u a (a + 1)).length) x (swapL u a (a + 1)) from rfl]
      rw [show weave u.length (!false) rest
          = weave (swapL u a (a + 1)).length true rest from by
        rw [show (!false) = true from rfl, hsw]]
      rw [ih (swapL u a (a + 1)) true (by rw [hsw]; exact hrest)]
      dsimp only
      rw [applySwaps_cons]
      dsimp only
      rw [permBlocks]
      rw [show (cond (!false) (insDesc x (swapL u a (a + 1)))
          (insAsc x (swapL u a (a + 1)))) = insDesc x (swapL u a (a + 1)) from rfl]
      rw [insDesc_eq_cons, insAt_length_self]
      rw [show (swapL u a (a + 1)).length = u.length from hsw, List.cons_append]
      simp only [List.length_cons, flipN, Bool.not_true, Bool.not_false]

theorem trace_sjt_succ (x : α) (u : List α) :
    (u ++ [x]) :: (applySwaps (u ++ [x]) (sjtSwaps (u.length + 1))).1
      = permBlocks x true (u :: (applySwaps u (sjtSwaps u.length)).1) := by
  rw [sjtSwaps, applySwaps_append, trace_sweep_down x u]
  dsimp only
  rw [show insAt 0 x u = insAt (cond true 0 u.length) x u from rfl]
  rw [trace_weave x (sjtSwaps u.length) u true (sjt_adjB u.length)]
  dsimp only
  rw [permBlocks]
  rw [show (cond true (insDesc x u) (insAsc x u)) = insDesc x u from rfl]
  rw [insDesc_eq_cons, insAt_length_self, List.cons_append]

/-- The abstract emission order of the permutation enumerator, built over the
reversed source: each added element is woven through alternating insertion
blocks. -/
def permTraceRev : List α → List (List α)
  | [] => [[]]
  | x :: rest => permBlocks x true (permTraceRev rest)

theorem permTraceRev_spec :
    ∀ r : List α, r.reverse :: (applySwaps r.reverse (sjtSwaps r.length)).1
      = permTraceRev r := by
  intro r
  induction r with
  | nil => rfl
  | cons x rest ih =>
    rw [permTraceRev, ← ih, List.reverse_cons,
      show (x :: rest).length = rest.reverse.length + 1 from by simp,
      trace_sjt_succ x rest.reverse,
      show sjtSwaps rest.reverse.length = sjtSwaps rest.length from by
        rw [List.length_reverse]]



theorem insAt_perm (p : ℕ) (x : α) (u : List α) :
    (insAt p x u).Perm (x :: u) := by
  rw [insAt]
  have h : (u.take p ++ x :: u.drop p).Perm (x :: (u.take p ++ u.drop p)) :=
    List.perm_middle
  rwa [List.take_append_drop] at h

theorem insAt_eq_insAt {x : α} {u w : List α} (hx : x ∉ u) (hxw : x ∉ w)
    (p q : ℕ) (hp : p ≤ u.length) (hq : q ≤ w.length)
    (h : insAt p x u = insAt q x w) : p = q ∧ u = w := by
  have hpq : p = q := by
    by_contra hne
    rcases Nat.lt_or_ge p q with hlt | hge
    · have h1 : (insAt p x u)[p]? = some x := getElem?_insAt_self p x u hp
      rw [h, getElem?_insAt_lt q p x w hlt hq] at h1
      have hplen : p < w.length := by omega
      rw [List.getElem?_eq_getElem hplen] at h1
      injection h1 with h1
      exact hxw (List.mem_iff_getElem.mpr ⟨p, hplen, h1⟩)
    · have hlt : q < p := by omega
      have h1 : (insAt q x w)[q]? = some x := getElem?_insAt_self q x w hq
      rw [← h, getElem?_insAt_lt p q x u hlt hp] at h1
      have hqlen : q < u.length := by omega
      rw [List.getElem?_eq_getElem hqlen] at h1
      injection h1 with h1
      exact hx (List.mem_iff_getElem.mpr ⟨q, hqlen, h1⟩)
  subst hpq
  refine ⟨rfl, ?_⟩
  have ht : u.take p = w.take p := by
    rw [← take_insAt p x u hp, h, take_insAt p x w hq]
  have hd : u.drop p = w.drop p := by
    rw [← drop_insAt p x u hp, h, drop_insAt p x w hq]
  rw [← List.take_append_drop p u, ht, hd, List.take_append_drop]

theorem nodup_insDesc (x : α) (w : List α) (hx : x ∉ w) : (insDesc x w).Nodup := by
  rw [insDesc]
  apply List.Nodup.map_on
  · intro p hp q hq h
    rw [List.mem_reverse, List.mem_range] at hp hq
    exact (insAt_eq_insAt hx hx p q (by omega) (by omega) h).1
  · exact List.nodup_reverse.mpr (List.nodup_range _)

theorem nodup_insAsc (x : α) (w : List α) (hx : x ∉ w) : (insAsc x w).Nodup := by
  rw [insAsc]
  apply List.Nodup.map_on
  · intro p hp q hq h
    rw [List.mem_range] at hp hq
    exact (insAt_eq_insAt hx hx p q (by omega) (by omega) h).1
  · exact List.nodup_range _

theorem mem_permBlocks {x : α} :
    ∀ (vs : List (List α)) (d : Bool) (y : List α), y ∈ permBlocks x d vs →
      ∃ w ∈ vs, ∃ p, p ≤ w.length ∧ y = insAt p x w := by
  intro vs
  induction vs with
  | nil => intro d y hy; cases d <;> simp [permBlocks] at hy
  | cons w ws ih =>
    intro d y hy
    rw [permBlocks] at hy
    rcases List.mem_append.mp hy with hy | hy
    · have hex : ∃ p, p ≤ w.length ∧ y = insAt p x w := by
        cases d with
        | true =>
          rw [show cond true (insDesc x w) (insAsc x w) = insDesc x w from rfl,
            insDesc] at hy
          rcases List.mem_map.mp hy with ⟨p, hp, rfl⟩
          rw [List.mem_reverse, List.mem_range] at hp
          exact ⟨p, by omega, rfl⟩
        | false =>
          rw [show cond false (insDesc x w) (insAsc x w) = insAsc x w from rfl,
            insAsc] at hy
          rcases List.mem_map.mp hy with ⟨p, hp, rfl⟩
          rw [List.mem_range] at hp
          exact ⟨p, by omega, rfl⟩
      obtain ⟨p, hp, rfl⟩ := hex
      exact ⟨w, by simp, p, hp, rfl⟩
    · obtain ⟨w', hw', p, hp, rfl⟩ := ih (!d) y hy
      exact ⟨w', List.mem_cons_of_mem _ hw', p, hp, rfl⟩

theorem length_permBlocks {x : α} (m : ℕ) :
    ∀ (vs : List (List α)) (d : Bool), (∀ w ∈ vs, w.length = m) →
      (permBlocks x d vs).length = vs.length * (m + 1) := by
  intro vs
  induction vs with
  | nil => intro d _; cases d <;> simp [permBlocks]
  | cons w ws ih =>
    intro d h
    rw [permBlocks, List.length_append]
    have hw : w.length = m := h w (by simp)
    have hblock : ∀ d' : Bool, (cond d' (insDesc x w) (insAsc x w)).length = m + 1 := by
      intro d'
      cases d'
      · rw [show (cond false (insDesc x w) (insAsc x w)) = insAsc x w from rfl, insAsc]
        simp [hw]
      · rw [show (cond true (insDesc x w) (insAsc x w)) = insDesc x w from rfl, insDesc]
        simp [hw]
    rw [hblock d, ih (!d) (fun w' hw' => h w' (List.mem_cons_of_mem _ hw'))]
    rw [List.length_cons, Nat.succ_mul]
    omega

theorem nodup_permBlocks {x : α} (m : ℕ) :
    ∀ (vs : List (List α)) (d : Bool), vs.Nodup →
      (∀ w ∈ vs, w.length = m ∧ x ∉ w) →
      (permBlocks x d vs).Nodup := by
  intro vs
  induction vs with
  | nil => intro d _ _; cases d <;> simp [permBlocks]
  | cons w ws ih =>
    intro d hnd h
    rw [permBlocks, List.nodup_append]
    obtain ⟨hwm, hwx⟩ := h w (by simp)
    refine ⟨?_, ih (!d) (List.Nodup.of_cons hnd)
      (fun w' hw' => h w' (List.mem_cons_of_mem _ hw')), ?_⟩
    · cases d
      · rw [show (cond false (insDesc x w) (insAsc x w)) = insAsc x w from rfl]
        exact nodup_insAsc x w hwx
      · rw [show (cond true (insDesc x w) (insAsc x w)) = insDesc x w from rfl]
        exact nodup_insDesc x w hwx
    · intro y hy hy'
      obtain ⟨w', hw', q, hq, hqe⟩ := mem_permBlocks ws (!d) y hy'
      subst hqe
      have hyy : ∃ p, p ≤ w.length ∧ insAt q x w' = insAt p x w := by
        cases d
        · rw [show (cond false (insDesc x w) (insAsc x w)) = insAsc x w from rfl,
            insAsc] at hy
          rcases List.mem_map.mp hy with ⟨p, hp, hpe⟩
          rw [List.mem_range] at hp
          exact ⟨p, by omega, hpe.symm⟩
        · rw [show (cond true (insDesc x w) (insAsc x w)) = insDesc x w from rfl,
            insDesc] at hy
          rcases List.mem_map.mp hy with ⟨p, hp, hpe⟩
          rw [List.mem_reverse, List.mem_range] at hp
          exact ⟨p, by omega, hpe.symm⟩
      obtain ⟨p, hp, heq⟩ := hyy
      obtain ⟨hw'm, hw'x⟩ := h w' (List.mem_cons_of_mem _ hw')
      obtain ⟨-, hww⟩ := insAt_eq_insAt hw'x hwx q p hq hp heq
      rw [hww] at hw'
      exact (List.nodup_cons.mp hnd).1 hw'

theorem permTraceRev_facts :
    ∀ r : List α,
      (∀ w ∈ permTraceRev r, w.length = r.length ∧ w.Perm r.reverse) ∧
      (permTraceRev r).length = (r.length).factorial ∧
      (r.Nodup → (permTraceRev r).Nodup) := by
  intro r
  induction r with
  | nil =>
    refine ⟨?_, rfl, ?_⟩
    · intro w hw
      simp only [permTraceRev, List.mem_singleton] at hw
      subst hw
      exact ⟨rfl, by simp⟩
    · intro _
      simp [permTraceRev]
  | cons x rest ih =>
    obtain ⟨ihm, ihl, ihn⟩ := ih
    have hmem : ∀ w ∈ permTraceRev (x :: rest),
        w.length = (x :: rest).length ∧ w.Perm (x :: rest).reverse := by
      intro w hw
      rw [permTraceRev] at hw
      obtain ⟨w', hw', p, hp, rfl⟩ := mem_permBlocks (permTraceRev rest) true w hw
      obtain ⟨hl', hperm'⟩ := ihm w' hw'
      constructor
      · rw [length_insAt p x w' hp, hl']
        rfl
      · have h1 : (insAt p x w').Perm (x :: w') := insAt_perm p x w'
        have h2 : (x :: w').Perm (x :: rest.reverse) := hperm'.cons x
        have h3 : (x :: rest.reverse).Perm ((x :: rest).reverse) := by
          rw [List.reverse_cons]
          have h4 : (rest.reverse ++ [x]).Perm (x :: (rest.reverse ++ [])) :=
            List.perm_middle
          simpa using h4.symm
        exact (h1.trans h2).trans h3
    refine ⟨hmem, ?_, ?_⟩
    · rw [permTraceRev,
        length_permBlocks rest.length (permTraceRev rest) true (fun w hw => (ihm w hw).1),
        ihl, List.length_cons, Nat.factorial_succ]
      ring
    · intro hnd
      have hx : x ∉ rest := (List.nodup_cons.mp hnd).1
      have hrest : rest.Nodup := (List.nodup_cons.mp hnd).2
      rw [permTraceRev]
      apply nodup_permBlocks rest.length (permTraceRev rest) true (ihn hrest)
      intro w hw
      obtain ⟨hl, hperm⟩ := ihm w hw
      refine ⟨hl, ?_⟩
      intro hxw
      exact hx (List.mem_reverse.mp (hperm.mem_iff.mp hxw))

theorem swapL_adj_perm (d : List α) (p : ℕ) (hp : p + 1 < d.length) :
    (swapL d p (p + 1)).Perm d := by
  have h1 : d.drop p = d.get ⟨p, by omega⟩ :: d.drop (p + 1) := by
    rw [List.drop_eq_getElem_cons (by omega : p < d.length)]
    simp
  have h2 : d.drop (p + 1) = d.get ⟨p + 1, hp⟩ :: d.drop (p + 2) := by
    rw [List.drop_eq_getElem_cons hp]
    simp
  have hd : d = d.take p ++ d.get ⟨p, by omega⟩ :: d.get ⟨p + 1, hp⟩ :: d.drop (p + 2) := by
    conv_lhs => rw [← List.take_append_drop p d, h1, h2]
  have hswap := swapL_adj (d.take p) (d.get ⟨p, by omega⟩) (d.get ⟨p + 1, hp⟩)
    (d.drop (p + 2))
  rw [show (d.take p).length = p from by rw [List.length_take]; omega] at hswap
  rw [hd, hswap]
  exact List.Perm.append_left _ (List.Perm.swap _ _ _)

theorem chain_applySwaps :
    ∀ (sw : List (ℕ × ℕ)) (d : List α), (∀ s ∈ sw, adjB d.length s) →
      List.Chain' (fun v w => ∃ p, p + 1 < v.length ∧ w = swapL v p (p + 1))
        (d :: (applySwaps d sw).1) := by
  intro sw
  induction sw with
  | nil => intro d _; exact List.chain'_singleton d
  | cons s rest ih =>
    intro d hb
    obtain ⟨a, b⟩ := s
    have h1 : b = a + 1 := (hb (a, b) (by simp)).1
    have h2 : b < d.length := (hb (a, b) (by simp)).2
    subst h1
    rw [applySwaps_cons]
    refine List.chain'_cons.mpr ⟨⟨a, by omega, rfl⟩, ?_⟩
    exact ih (swapL d a (a + 1))
      (by rw [swapL_length]; exact fun s hs => hb s (List.mem_cons_of_mem _ hs))

theorem perm_applySwaps :
    ∀ (sw : List (ℕ × ℕ)) (d : List α), (∀ s ∈ sw, adjB d.length s) →
      ∀ w ∈ (applySwaps d sw).1, w.Perm d := by
  intro sw
  induction sw with
  | nil =>
    intro d _ w hw
    simp [applySwaps] at hw
  | cons s rest ih =>
    intro d hb w hw
    obtain ⟨a, b⟩ := s
    have h1 : b = a + 1 := (hb (a, b) (by simp)).1
    have h2 : b < d.length := (hb (a, b) (by simp)).2
    subst h1
    rw [applySwaps_cons] at hw
    have hsp : (swapL d a (a + 1)).Perm d := swapL_adj_perm d a h2
    rcases List.mem_cons.mp hw with rfl | hw
    · exact hsp
    · exact (ih (swapL d a (a + 1))
        (by rw [swapL_length]; exact fun s hs => hb s (List.mem_cons_of_mem _ hs))
        w hw).trans hsp



/-- C5 counterexample: with the duplicated source `[0, 0]` the enumerator
emits two equal views, so the views are not pairwise distinct orderings, and
the consecutively emitted states do not differ at any position. -/
theorem permutations_views_can_repeat :
    (run Permutations.next 3 (permutations_iter [0, 0])).1 = [[0, 0], [0, 0]] ∧
    ¬ (run Permutations.next 3 (permutations_iter [0, 0])).1.Nodup := by
  decide

/-- C5 (amended): for every source of length `n`, the permutation enumerator
yields exactly `n!` views before signaling exhaustion; every view is an
ordering of the source multiset; every pair of consecutively emitted states
is related by one adjacent position swap; and when the source has no
duplicated elements the views are pairwise distinct (with duplicated
elements they need not be, see `permutations_views_can_repeat`). -/
theorem permutations_enumeration (src : List α) (fuel : ℕ)
    (hfuel : (src.length).factorial < fuel) :
    (run Permutations.next fuel (permutations_iter src)).1.length
        = (src.length).factorial ∧
    (∀ view ∈ (run Permutations.next fuel (permutations_iter src)).1,
      view.Perm src) ∧
    List.Chain' (fun v w => ∃ p, p + 1 < v.length ∧ w = swapL v p (p + 1))
      (run Permutations.next fuel (permutations_iter src)).1 ∧
    (src.Nodup → (run Permutations.next fuel (permutations_iter src)).1.Nodup) := by
  rw [perm_run src fuel hfuel]
  dsimp only
  have hspec := permTraceRev_spec (r := src.reverse)
  rw [List.reverse_reverse, List.length_reverse] at hspec
  obtain ⟨hm, hl, hn⟩ := permTraceRev_facts (r := src.reverse)
  rw [List.length_reverse] at hl
  rw [List.reverse_reverse, List.length_reverse] at hm
  refine ⟨?_, ?_, ?_, ?_⟩
  · rw [hspec, hl]
  · intro view hview
    rw [hspec] at hview
    exact (hm view hview).2
  · exact chain_applySwaps (sjtSwaps src.length) src (sjt_adjB src.length)
  · intro hnd
    rw [hspec]
    exact hn (List.nodup_reverse.mpr hnd)

/-- Witness for `permutations_enumeration`: the `2! = 2` permutations of
`[0, 1]`, pairwise distinct. -/
theorem permutations_enumeration_witness :
    (run Permutations.next 4 (permutations_iter [0, 1])).1.length = Nat.factorial 2 ∧
    (run Permutations.next 4 (permutations_iter [0, 1])).1.Nodup := by
  have h := permutations_enumeration [0, 1] 4 (by decide)
  exact ⟨h.1, h.2.2.2 (by decide)⟩

end Combinatorust
